import Mathlib

/-!
Verification of the v11y-web audio core against its specification.

The numerical code (`src/lib/noiseReducer.ts`, `src/lib/audioUtils.ts`,
`src/lib/audioEnhancer.ts`) is shallowly embedded over ideal real numbers:
`Float32Array` buffers become `List ℝ` (or index functions `ℕ → ℝ`), the
parallel real/imaginary arrays of the FFT become a single array of complex
numbers `ℕ → ℂ`, imperative loops become folds over `List.range`, and
per-sample mutable state (IIR histories, envelopes) becomes explicit
state recursion over the sample index.
-/

namespace V11y

/-- The complex number `cos θ + i Â· sin θ`: the `(cosW, sinW)` twiddle pair
computed in `computeFFT` (noiseReducer.ts lines 177-178), viewed as one
complex value. -/
noncomputable def tw (θ : ℝ) : ℂ := ⟨Real.cos θ, Real.sin θ⟩

theorem tw_eq_exp (θ : ℝ) : tw θ = Complex.exp (θ * Complex.I) := by
  rw [Complex.exp_mul_I]
  apply Complex.ext <;>
    simp [tw, Complex.cos_ofReal_re, Complex.sin_ofReal_re, Complex.cos_ofReal_im,
      Complex.sin_ofReal_im]

theorem tw_zero : tw 0 = 1 := by
  simp [tw_eq_exp]

theorem tw_add (a b : ℝ) : tw (a + b) = tw a * tw b := by
  simp [tw_eq_exp, ← Complex.exp_add, Complex.ofReal_add, add_mul]

theorem tw_nat_mul (t : ℕ) (θ : ℝ) : tw (t * θ) = tw θ ^ t := by
  simp [tw_eq_exp, ← Complex.exp_nat_mul]
  ring_nf

theorem tw_int_two_pi (k : ℤ) : tw (2 * Real.pi * k) = 1 := by
  rw [tw_eq_exp]
  rw [show ((2 * Real.pi * k : ℝ) : ℂ) * Complex.I = k * (2 * Real.pi * Complex.I) by
    push_cast; ring]
  exact Complex.exp_int_mul_two_pi_mul_I k

theorem tw_conj (θ : ℝ) : starRingEnd ℂ (tw θ) = tw (-θ) := by
  apply Complex.ext <;> simp [tw]

theorem tw_ne_one {θ : ℝ} (h : ∀ k : ℤ, θ ≠ 2 * Real.pi * k) : tw θ ≠ 1 := by
  rw [tw_eq_exp]
  intro hc
  rcases Complex.exp_eq_one_iff.mp hc with ⟨k, hk⟩
  apply h k
  have : ((θ : ℂ)) * Complex.I = ((2 * Real.pi * k : ℝ) : ℂ) * Complex.I := by
    rw [hk]; push_cast; ring
  have := mul_right_cancel₀ Complex.I_ne_zero this
  exact_mod_cast this

/-- Reversal of the low `s` bits of a natural number. -/
def bitRev : ℕ → ℕ → ℕ
  | 0, _ => 0
  | s + 1, i => i % 2 * 2 ^ s + bitRev s (i / 2)

theorem bitRev_lt (s : ℕ) (i : ℕ) : bitRev s i < 2 ^ s := by
  induction s generalizing i with
  | zero => simp [bitRev]
  | succ s ih =>
    have h2 : i % 2 ≤ 1 := Nat.lt_succ_iff.mp (Nat.mod_lt _ (by norm_num))
    have := ih (i / 2)
    calc i % 2 * 2 ^ s + bitRev s (i / 2) < i % 2 * 2 ^ s + 2 ^ s := by omega
    _ ≤ 1 * 2 ^ s + 2 ^ s := by
        have : i % 2 * 2 ^ s ≤ 1 * 2 ^ s := Nat.mul_le_mul_right _ h2
        omega
    _ ≤ 2 ^ (s + 1) := by ring_nf; omega

theorem bitRev_zero (s : ℕ) : bitRev s 0 = 0 := by
  induction s with
  | zero => rfl
  | succ s ih => simp [bitRev, ih]

theorem bitRev_two_mul (s c : ℕ) : bitRev (s + 1) (2 * c) = bitRev s c := by
  simp [bitRev, Nat.mul_div_cancel_left _ (by norm_num : 0 < 2), Nat.mul_mod_right]

theorem bitRev_two_mul_add_one (s c : ℕ) :
    bitRev (s + 1) (2 * c + 1) = 2 ^ s + bitRev s c := by
  simp [bitRev, Nat.mul_add_mod, Nat.mul_add_div (by norm_num : 0 < 2)]

theorem bitRev_succ_eq (s i : ℕ) :
    bitRev (s + 1) i = i % 2 * 2 ^ s + bitRev s (i / 2) := rfl

theorem bitRev_msb (s : ℕ) : ∀ b r : ℕ, b ≤ 1 → r < 2 ^ s →
    bitRev (s + 1) (b * 2 ^ s + r) = 2 * bitRev s r + b := by
  induction s with
  | zero =>
    intro b r hb hr
    interval_cases b <;> simp_all [bitRev]
  | succ s ih =>
    intro b r hb hr
    obtain ⟨y, hy⟩ : ∃ y, b * 2 ^ s = y := ⟨_, rfl⟩
    have h2 : b * 2 ^ (s + 1) = y * 2 := by rw [← hy]; ring
    have hmod : (b * 2 ^ (s + 1) + r) % 2 = r % 2 := by omega
    have hdiv : (b * 2 ^ (s + 1) + r) / 2 = b * 2 ^ s + r / 2 := by rw [hy]; omega
    rw [bitRev_succ_eq, hmod, hdiv,
      ih b (r / 2) hb (Nat.div_lt_of_lt_mul (by rw [pow_succ] at hr; omega)),
      bitRev_succ_eq]
    ring

theorem bitRev_bitRev (s : ℕ) : ∀ i : ℕ, i < 2 ^ s → bitRev s (bitRev s i) = i := by
  induction s with
  | zero => intro i hi; interval_cases i; rfl
  | succ s ih =>
    intro i hi
    have hb : i % 2 ≤ 1 := Nat.lt_succ_iff.mp (Nat.mod_lt _ (by norm_num))
    have hc : i / 2 < 2 ^ s := Nat.div_lt_of_lt_mul (by rw [pow_succ] at hi; omega)
    rw [show bitRev (s + 1) i = i % 2 * 2 ^ s + bitRev s (i / 2) from rfl,
      bitRev_msb s (i % 2) (bitRev s (i / 2)) hb (bitRev_lt _ _), ih _ hc]
    omega

theorem bitRev_all_ones (s : ℕ) : bitRev s (2 ^ s - 1) = 2 ^ s - 1 := by
  induction s with
  | zero => rfl
  | succ s ih =>
    have h1 : (2 ^ (s + 1) - 1) % 2 = 1 := by
      have : 2 ^ (s + 1) - 1 = 2 * (2 ^ s - 1) + 1 := by
        have : 1 ≤ 2 ^ s := Nat.one_le_two_pow
        omega
      omega
    have h2 : (2 ^ (s + 1) - 1) / 2 = 2 ^ s - 1 := by
      have : 2 ^ (s + 1) - 1 = (2 ^ s - 1) * 2 + 1 := by
        have : 1 ≤ 2 ^ s := Nat.one_le_two_pow
        omega
      omega
    rw [bitRev_succ_eq, h1, h2, ih]
    have : 1 ≤ 2 ^ s := Nat.one_le_two_pow
    omega

theorem bitRev_injOn (s : ℕ) {i j : ℕ} (hi : i < 2 ^ s) (hj : j < 2 ^ s)
    (h : bitRev s i = bitRev s j) : i = j := by
  have := bitRev_bitRev s i hi
  rw [h, bitRev_bitRev s j hj] at this
  omega

/-- The inner `while` loop of the bit-reversal permutation in `computeFFT`
(noiseReducer.ts lines 162-167): starting from `k`, while `k ≤ j` clear that
bit (`j -= k`, `k /= 2`), then set it (`j += k`).  The `0 < k` guard makes the
function total; the source never reaches `k = 0` because `j` never has all
bits set when the loop runs. -/
def revCarry (k j : ℕ) : ℕ :=
  if h : 0 < k ∧ k ≤ j then revCarry (k / 2) (j - k) else j + k
termination_by k
decreasing_by exact Nat.div_lt_self h.1 (by norm_num)

theorem revCarry_of_le {k j : ℕ} (hk : 0 < k) (h : k ≤ j) :
    revCarry k j = revCarry (k / 2) (j - k) := by
  rw [revCarry]
  exact dif_pos ⟨hk, h⟩

theorem revCarry_of_gt {k j : ℕ} (h : j < k) : revCarry k j = j + k := by
  rw [revCarry]
  exact dif_neg (by omega)

/-- `revCarry` starting at the top bit is exactly increment-in-reversed-binary. -/
theorem revCarry_bitRev (s : ℕ) : ∀ i : ℕ, i + 1 < 2 ^ (s + 1) →
    revCarry (2 ^ s) (bitRev (s + 1) i) = bitRev (s + 1) (i + 1) := by
  induction s with
  | zero =>
    intro i hi
    have hi0 : i = 0 := by omega
    subst hi0
    rw [show bitRev 1 0 = 0 from rfl, revCarry_of_gt (by norm_num)]
    rfl
  | succ s ih =>
    intro i hi
    rcases Nat.even_or_odd i with ⟨c, hc⟩ | ⟨c, hc⟩
    · have hc2 : i = 2 * c := by omega
      subst hc2
      have h1 : bitRev (s + 1 + 1) (2 * c) = bitRev (s + 1) c := bitRev_two_mul _ _
      have h2 : bitRev (s + 1) c < 2 ^ (s + 1) := bitRev_lt _ _
      rw [h1, revCarry_of_gt h2, show 2 * c + 1 = 2 * c + 1 from rfl,
        bitRev_two_mul_add_one]
      omega
    · subst hc
      have h1 : bitRev (s + 1 + 1) (2 * c + 1) = 2 ^ (s + 1) + bitRev (s + 1) c :=
        bitRev_two_mul_add_one _ _
      have h2 : 2 ^ (s + 1) ≤ 2 ^ (s + 1) + bitRev (s + 1) c := by omega
      have h3 : (2 : ℕ) ^ (s + 1) / 2 = 2 ^ s := by
        rw [pow_succ]
        exact Nat.mul_div_cancel _ (by norm_num)
      rw [h1, revCarry_of_le (Nat.pos_pow_of_pos _ (by norm_num)) h2, h3,
        Nat.add_sub_cancel_left, ih c (by omega),
        show 2 * c + 1 + 1 = 2 * (c + 1) from by ring, bitRev_two_mul]

/-- One iteration of the bit-reversal permutation loop of `computeFFT`
(noiseReducer.ts lines 157-168): swap `a[i]` and `a[j]` when `i < j`, then
advance `j` by the reversed-increment `while` loop. -/
def bitRevStep (n : ℕ) (s : (ℕ → ℂ) × ℕ) (i : ℕ) : (ℕ → ℂ) × ℕ :=
  let a := s.1
  let j := s.2
  let a' := if i < j then Function.update (Function.update a i (a j)) j (a i) else a
  (a', revCarry (n / 2) j)

/-- The bit-reversal permutation pass of `computeFFT` (noiseReducer.ts lines
155-168), looping `i` over `0 .. n-2`. -/
def bitRevPass (n : ℕ) (a : ℕ → ℂ) : ℕ → ℂ :=
  ((List.range (n - 1)).foldl (bitRevStep n) (a, 0)).1

theorem bitRevFold (s : ℕ) (a : ℕ → ℂ) : ∀ m : ℕ, m ≤ 2 ^ (s + 1) - 1 →
    ((List.range m).foldl (bitRevStep (2 ^ (s + 1))) (a, 0)).2 = bitRev (s + 1) m ∧
    ∀ q, ((List.range m).foldl (bitRevStep (2 ^ (s + 1))) (a, 0)).1 q =
      if q < m ∨ (q < 2 ^ (s + 1) ∧ bitRev (s + 1) q < m) then a (bitRev (s + 1) q)
      else a q := by
  intro m
  induction m with
  | zero =>
    intro _
    exact ⟨by simp [bitRev_zero], fun q => by simp⟩
  | succ m ih =>
    intro hm
    obtain ⟨ihj, iha⟩ := ih (by omega)
    have hfold : (List.range (m + 1)).foldl (bitRevStep (2 ^ (s + 1))) (a, 0) =
        bitRevStep (2 ^ (s + 1))
          ((List.range m).foldl (bitRevStep (2 ^ (s + 1))) (a, 0)) m := by
      rw [List.range_succ, List.foldl_append, List.foldl_cons, List.foldl_nil]
    have hm2 : m < 2 ^ (s + 1) := by omega
    have hrevlt : bitRev (s + 1) m < 2 ^ (s + 1) := bitRev_lt _ _
    have hmrev : bitRev (s + 1) (bitRev (s + 1) m) = m := bitRev_bitRev _ _ hm2
    have hdj : (2 : ℕ) ^ (s + 1) / 2 = 2 ^ s := by
      rw [pow_succ]
      exact Nat.mul_div_cancel _ (by norm_num)
    refine ⟨?_, ?_⟩
    · rw [hfold, bitRevStep, ihj]
      simp only
      rw [hdj]
      exact revCarry_bitRev s m (by omega)
    · intro q
      rw [hfold, bitRevStep]
      simp only [ihj]
      by_cases hswap : m < bitRev (s + 1) m
      · rw [if_pos hswap]
        rcases eq_or_ne q m with rfl | hqm
        · rw [Function.update_noteq (by omega), Function.update_same]
          rw [iha (bitRev (s + 1) q)]
          have hno : ¬(bitRev (s + 1) q < q ∨
              bitRev (s + 1) q < 2 ^ (s + 1) ∧
                bitRev (s + 1) (bitRev (s + 1) q) < q) := by
            rw [hmrev]
            omega
          rw [if_neg hno, if_pos (Or.inl (by omega))]
        · rcases eq_or_ne q (bitRev (s + 1) m) with rfl | hqr
          · rw [Function.update_same, iha m]
            have hno : ¬(m < m ∨ m < 2 ^ (s + 1) ∧ bitRev (s + 1) m < m) := by omega
            rw [if_neg hno,
              if_pos (Or.inr ⟨hrevlt, by rw [hmrev]; omega⟩), hmrev]
          · rw [Function.update_noteq hqr, Function.update_noteq hqm, iha q]
            by_cases hq2 : q < 2 ^ (s + 1)
            · have hne : bitRev (s + 1) q ≠ m := fun hEq =>
                hqr ((bitRev_bitRev _ _ hq2).symm.trans (congrArg (bitRev (s + 1)) hEq))
              by_cases h1 : q < m ∨ q < 2 ^ (s + 1) ∧ bitRev (s + 1) q < m
              · rw [if_pos h1, if_pos (by omega)]
              · rw [if_neg h1, if_neg (by omega)]
            · rw [if_neg (by omega), if_neg (by omega)]
      · rw [if_neg hswap]
        push_neg at hswap
        rw [iha q]
        rcases eq_or_ne q m with rfl | hqm
        · rcases Nat.eq_or_lt_of_le hswap with hEq | hlt
          · rw [if_neg (by omega), if_pos (Or.inl (by omega)), hEq]
          · rw [if_pos (Or.inr ⟨hm2, hlt⟩), if_pos (Or.inl (by omega))]
        · by_cases hq2 : q < 2 ^ (s + 1)
          · rcases eq_or_ne (bitRev (s + 1) q) m with hEq | hne
            · have hq : q = bitRev (s + 1) m :=
                (bitRev_bitRev _ _ hq2).symm.trans (congrArg (bitRev (s + 1)) hEq)
              have hqlt : q < m := by omega
              rw [if_pos (Or.inl hqlt), if_pos (Or.inl (by omega))]
            · by_cases h1 : q < m ∨ q < 2 ^ (s + 1) ∧ bitRev (s + 1) q < m
              · rw [if_pos h1, if_pos (by omega)]
              · rw [if_neg h1, if_neg (by omega)]
          · rw [if_neg (by omega), if_neg (by omega)]

theorem bitRevPass_apply {s : ℕ} (a : ℕ → ℂ) {q : ℕ} (hq : q < 2 ^ s) :
    bitRevPass (2 ^ s) a q = a (bitRev s q) := by
  cases s with
  | zero =>
    have : q = 0 := by omega
    subst this
    simp [bitRevPass, bitRev]
  | succ s =>
    have h1 : (1 : ℕ) ≤ 2 ^ (s + 1) := Nat.one_le_two_pow
    obtain ⟨-, ha⟩ := bitRevFold s a (2 ^ (s + 1) - 1) le_rfl
    rw [bitRevPass, ha q]
    by_cases hc : q < 2 ^ (s + 1) - 1 ∨
        q < 2 ^ (s + 1) ∧ bitRev (s + 1) q < 2 ^ (s + 1) - 1
    · rw [if_pos hc]
    · rw [if_neg hc]
      have hrevlt : bitRev (s + 1) q < 2 ^ (s + 1) := bitRev_lt _ _
      have hq' : q = 2 ^ (s + 1) - 1 := by omega
      rw [hq', bitRev_all_ones]

theorem bitRevPass_high {s : ℕ} (a : ℕ → ℂ) {q : ℕ} (hq : 2 ^ s ≤ q) :
    bitRevPass (2 ^ s) a q = a q := by
  cases s with
  | zero => simp [bitRevPass]
  | succ s =>
    obtain ⟨-, ha⟩ := bitRevFold s a (2 ^ (s + 1) - 1) le_rfl
    rw [bitRevPass, ha q, if_neg (by omega)]

theorem foldl_untouched {α ι : Type*} (R : ι → Set ℕ) (f : ι → (ℕ → α) → (ℕ → α))
    (hW : ∀ i b p, p ∉ R i → f i b p = b p) :
    ∀ (l : List ι) (a : ℕ → α) (p : ℕ), (∀ i ∈ l, p ∉ R i) →
      (l.foldl (fun b i => f i b) a) p = a p := by
  intro l
  induction l with
  | nil => intro a p _; rfl
  | cons j rest ih =>
    intro a p hp
    rw [List.foldl_cons, ih (f j a) p (fun i hi => hp i (List.mem_cons_of_mem _ hi)),
      hW j a p (hp j (List.mem_cons_self _ _))]

theorem foldl_agree_on {α ι : Type*} (S : Set ℕ) (f : ι → (ℕ → α) → (ℕ → α)) :
    ∀ (l : List ι),
      (∀ i ∈ l, ∀ b b', (∀ q ∈ S, b q = b' q) → ∀ p ∈ S, f i b p = f i b' p) →
      ∀ (b b' : ℕ → α), (∀ q ∈ S, b q = b' q) →
      ∀ p ∈ S, (l.foldl (fun x i => f i x) b) p = (l.foldl (fun x i => f i x) b') p := by
  intro l
  induction l with
  | nil => intro _ b b' hb p hp; exact hb p hp
  | cons j rest ih =>
    intro h b b' hb p hp
    rw [List.foldl_cons, List.foldl_cons]
    exact ih (fun i hi => h i (List.mem_cons_of_mem _ hi)) (f j b) (f j b')
      (h j (List.mem_cons_self _ _) b b' hb) p hp

theorem foldl_localized {α ι : Type*} (R : ι → Set ℕ) (f : ι → (ℕ → α) → (ℕ → α))
    (hW : ∀ i b p, p ∉ R i → f i b p = b p)
    (hR : ∀ i b b', (∀ q ∈ R i, b q = b' q) → ∀ p ∈ R i, f i b p = f i b' p) :
    ∀ (l : List ι), l.Pairwise (fun i j => Disjoint (R i) (R j)) →
      ∀ (a : ℕ → α) (i : ι) (p : ℕ), i ∈ l → p ∈ R i →
        (l.foldl (fun b i => f i b) a) p = f i a p := by
  intro l
  induction l with
  | nil => intro _ a i p hi _; exact absurd hi (List.not_mem_nil i)
  | cons j rest ih =>
    intro hpw a i p hi hp
    obtain ⟨hdisj, hpw'⟩ := List.pairwise_cons.mp hpw
    rw [List.foldl_cons]
    rcases List.mem_cons.mp hi with rfl | hmem
    · exact foldl_untouched R f hW rest (f i a) p
        (fun i' hi' => Set.disjoint_left.mp (hdisj i' hi') hp)
    · rw [ih hpw' (f j a) i p hmem hp]
      refine hR i (f j a) a (fun q hq => ?_) p hp
      have hdj : Disjoint (R j) (R i) := hdisj i hmem
      exact hW j a q (Set.disjoint_right.mp hdj hq)

/-- The butterfly body of the Cooley-Tukey inner loop (noiseReducer.ts lines
176-187), on the combined complex array: with `w = jj * wm`,
`wm = -2π/m` (the source accumulates `w += wm`, which over ideal reals is
exactly `jj * wm` at iteration `jj`), compute
`t = (cos w + i·sin w) * a[k+jj+m/2]`, `u = a[k+jj]` and store `u + t`,
`u - t`. -/
noncomputable def butterfly (m k jj : ℕ) (a : ℕ → ℂ) : ℕ → ℂ :=
  let wm : ℝ := -2 * Real.pi / m
  let w : ℝ := jj * wm
  let cosW := Real.cos w
  let sinW := Real.sin w
  let tRe := cosW * (a (k + jj + m / 2)).re - sinW * (a (k + jj + m / 2)).im
  let tIm := sinW * (a (k + jj + m / 2)).re + cosW * (a (k + jj + m / 2)).im
  let u := a (k + jj)
  Function.update (Function.update a (k + jj) (u + ⟨tRe, tIm⟩)) (k + jj + m / 2)
    (u - ⟨tRe, tIm⟩)

theorem tw_mul_components (θ : ℝ) (z : ℂ) :
    tw θ * z = ⟨Real.cos θ * z.re - Real.sin θ * z.im,
      Real.sin θ * z.re + Real.cos θ * z.im⟩ := by
  apply Complex.ext <;> simp [tw, Complex.mul_re, Complex.mul_im] <;> ring

/-- The inner `jj` loop of a Cooley-Tukey stage (noiseReducer.ts lines 175-188). -/
noncomputable def innerPass (m k : ℕ) (a : ℕ → ℂ) : ℕ → ℂ :=
  (List.range (m / 2)).foldl (fun b jj => butterfly m k jj b) a

/-- One stage (`for k` loop) of the Cooley-Tukey FFT for block size `m`
(noiseReducer.ts lines 173-189): blocks start at `k = 0, m, 2m, ...` below `n`. -/
noncomputable def fftStage (n m : ℕ) (a : ℕ → ℂ) : ℕ → ℂ :=
  ((List.range (n / m)).map (· * m)).foldl (fun b k => innerPass m k b) a

/-- Stage sizes taken by the `while (m <= n)` loop, doubling from `m`. -/
def stageList (n m : ℕ) : List ℕ :=
  if h : 0 < m ∧ m ≤ n then m :: stageList n (2 * m) else []
termination_by n + 1 - m
decreasing_by omega

/-- The iterative Cooley-Tukey stage ladder (noiseReducer.ts lines 170-191). -/
noncomputable def fftLoop (n : ℕ) (a : ℕ → ℂ) : ℕ → ℂ :=
  (stageList n 2).foldl (fun b m => fftStage n m b) a

/-- Bit-reversal permutation followed by the stage ladder: the common body of
`computeFFT` and `computeIFFT`. -/
noncomputable def fftRaw (n : ℕ) (a : ℕ → ℂ) : ℕ → ℂ := fftLoop n (bitRevPass n a)

/-- `computeFFT` (noiseReducer.ts lines 150-194): the input array is real,
the imaginary array starts at zero; then bit-reversal permutation and the
iterative radix-2 stages run in place. -/
noncomputable def computeFFT (n : ℕ) (input : ℕ → ℝ) : ℕ → ℂ :=
  fftRaw n (fun i => ((input i : ℝ) : ℂ))

/-- `computeIFFT` (noiseReducer.ts lines 196-250): conjugate the input
spectrum, run the same forward FFT body, and return the real output scaled by
`1/n` (the imaginary result array is discarded by the source). -/
noncomputable def computeIFFT (n : ℕ) (re im : ℕ → ℝ) : ℕ → ℝ :=
  fun i => (fftRaw n (fun t => ⟨re t, -im t⟩) i).re / n

/-- The discrete Fourier transform with kernel `exp(-2πi·j·t/n)`. -/
noncomputable def dft (n : ℕ) (y : ℕ → ℂ) (j : ℕ) : ℂ :=
  ∑ t ∈ Finset.range n, y t * tw (-2 * Real.pi / n * (j * t))

theorem butterfly_apply (m k jj : ℕ) (b : ℕ → ℂ) (p : ℕ) :
    butterfly m k jj b p =
      if p = k + jj + m / 2 then
        b (k + jj) - tw (jj * (-2 * Real.pi / m)) * b (k + jj + m / 2)
      else if p = k + jj then
        b (k + jj) + tw (jj * (-2 * Real.pi / m)) * b (k + jj + m / 2)
      else b p := by
  rw [butterfly]
  rw [Function.update_apply, Function.update_apply, tw_mul_components]

theorem butterfly_out (m k : ℕ) : ∀ (i : ℕ) (b : ℕ → ℂ),
    ∀ p ∉ ({k + i, k + i + m / 2} : Set ℕ), butterfly m k i b p = b p := by
  intro i b p hp
  rw [butterfly_apply]
  simp only [Set.mem_insert_iff, Set.mem_singleton_iff] at hp
  push_neg at hp
  rw [if_neg hp.2, if_neg hp.1]

theorem butterfly_agree (m k : ℕ) : ∀ (i : ℕ) (b b' : ℕ → ℂ),
    (∀ q ∈ ({k + i, k + i + m / 2} : Set ℕ), b q = b' q) →
    ∀ p ∈ ({k + i, k + i + m / 2} : Set ℕ), butterfly m k i b p = butterfly m k i b' p := by
  intro i b b' hb p hp
  have e1 : b (k + i) = b' (k + i) := hb _ (by left; rfl)
  have e2 : b (k + i + m / 2) = b' (k + i + m / 2) := hb _ (by right; rfl)
  have hp' : p = k + i ∨ p = k + i + m / 2 := by simpa using hp
  rw [butterfly_apply, butterfly_apply, e1, e2]
  split_ifs with h1 h2
  · rfl
  · rfl
  · exact absurd hp' (by push_neg; exact ⟨h2, h1⟩)

theorem butterfly_pairwise (m k : ℕ) :
    (List.range (m / 2)).Pairwise (fun i j =>
      Disjoint (({k + i, k + i + m / 2} : Set ℕ)) ({k + j, k + j + m / 2} : Set ℕ)) := by
  rw [List.pairwise_iff_getElem]
  intro i j hi hj hij
  simp only [List.getElem_range]
  rw [List.length_range] at hi hj
  rw [Set.disjoint_left]
  intro x hx hx'
  simp only [Set.mem_insert_iff, Set.mem_singleton_iff] at hx hx'
  omega

theorem innerPass_lo (m k jj : ℕ) (a : ℕ → ℂ) (hjj : jj < m / 2) :
    innerPass m k a (k + jj) =
      a (k + jj) + tw (jj * (-2 * Real.pi / m)) * a (k + jj + m / 2) := by
  have h := foldl_localized (fun i => ({k + i, k + i + m / 2} : Set ℕ)) (butterfly m k)
    (butterfly_out m k) (butterfly_agree m k) (List.range (m / 2))
    (butterfly_pairwise m k) a jj (k + jj) (List.mem_range.mpr hjj) (by left; rfl)
  rw [innerPass, h, butterfly_apply, if_neg (by omega), if_pos rfl]

theorem innerPass_hi (m k jj : ℕ) (a : ℕ → ℂ) (hjj : jj < m / 2) :
    innerPass m k a (k + jj + m / 2) =
      a (k + jj) - tw (jj * (-2 * Real.pi / m)) * a (k + jj + m / 2) := by
  have h := foldl_localized (fun i => ({k + i, k + i + m / 2} : Set ℕ)) (butterfly m k)
    (butterfly_out m k) (butterfly_agree m k) (List.range (m / 2))
    (butterfly_pairwise m k) a jj (k + jj + m / 2) (List.mem_range.mpr hjj) (by right; rfl)
  rw [innerPass, h, butterfly_apply, if_pos rfl]

theorem innerPass_out (m k : ℕ) (a : ℕ → ℂ) (p : ℕ) (hp : p < k ∨ k + m ≤ p) :
    innerPass m k a p = a p := by
  rw [innerPass]
  refine foldl_untouched (fun i => ({k + i, k + i + m / 2} : Set ℕ)) (butterfly m k)
    (butterfly_out m k) (List.range (m / 2)) a p (fun jj hjj => ?_)
  rw [List.mem_range] at hjj
  simp only [Set.mem_insert_iff, Set.mem_singleton_iff]
  omega

theorem innerPass_agree (m kv : ℕ) (b b' : ℕ → ℂ)
    (hb : ∀ q ∈ Set.Ico kv (kv + m), b q = b' q) :
    ∀ p ∈ Set.Ico kv (kv + m), innerPass m kv b p = innerPass m kv b' p := by
  rw [innerPass, innerPass]
  refine foldl_agree_on (Set.Ico kv (kv + m)) (butterfly m kv) (List.range (m / 2))
    (fun jj hjj c c' hc p hp => ?_) b b' hb
  rw [List.mem_range] at hjj
  have e1 : c (kv + jj) = c' (kv + jj) := hc _ (by rw [Set.mem_Ico]; omega)
  have e2 : c (kv + jj + m / 2) = c' (kv + jj + m / 2) := by
    refine hc _ ?_
    rw [Set.mem_Ico]
    omega
  rw [butterfly_apply, butterfly_apply, e1, e2]
  rw [Set.mem_Ico] at hp
  split_ifs with h1 h2
  · rfl
  · rfl
  · rw [hc p (by rw [Set.mem_Ico]; omega)]

theorem innerPass_out_set (m : ℕ) : ∀ (kv : ℕ) (b : ℕ → ℂ),
    ∀ p ∉ Set.Ico kv (kv + m), innerPass m kv b p = b p := by
  intro kv b p hp
  rw [Set.mem_Ico] at hp
  push_neg at hp
  refine innerPass_out m kv b p ?_
  by_cases h : kv ≤ p
  · exact Or.inr (hp h)
  · exact Or.inl (by omega)

theorem block_pairwise (n m : ℕ) :
    ((List.range (n / m)).map (· * m)).Pairwise fun i j =>
      Disjoint (Set.Ico i (i + m)) (Set.Ico j (j + m)) := by
  rw [List.pairwise_iff_getElem]
  intro i j hi hj hij
  simp only [List.getElem_map, List.getElem_range]
  rw [List.length_map, List.length_range] at hi hj
  rw [Set.disjoint_left]
  intro x hx hx'
  rw [Set.mem_Ico] at hx hx'
  have hle : i * m + m ≤ j * m := by
    calc i * m + m = (i + 1) * m := by ring
    _ ≤ j * m := Nat.mul_le_mul_right m hij
  omega

theorem fftStage_localized (n m c : ℕ) (a : ℕ → ℂ) (hc : c < n / m) :
    ∀ p ∈ Set.Ico (c * m) (c * m + m), fftStage n m a p = innerPass m (c * m) a p := by
  intro p hp
  rw [fftStage]
  exact foldl_localized (fun kv => Set.Ico kv (kv + m)) (innerPass m)
    (innerPass_out_set m) (fun kv => innerPass_agree m kv)
    ((List.range (n / m)).map (· * m)) (block_pairwise n m) a (c * m) p
    (List.mem_map.mpr ⟨c, List.mem_range.mpr hc, rfl⟩) hp

theorem fftStage_lo (n m c jj : ℕ) (a : ℕ → ℂ) (hc : c < n / m) (hjj : jj < m / 2) :
    fftStage n m a (c * m + jj) =
      a (c * m + jj) + tw (jj * (-2 * Real.pi / m)) * a (c * m + jj + m / 2) := by
  rw [fftStage_localized n m c a hc (c * m + jj) (by rw [Set.mem_Ico]; omega),
    innerPass_lo m (c * m) jj a hjj]

theorem fftStage_hi (n m c jj : ℕ) (a : ℕ → ℂ) (hc : c < n / m) (hjj : jj < m / 2) :
    fftStage n m a (c * m + jj + m / 2) =
      a (c * m + jj) - tw (jj * (-2 * Real.pi / m)) * a (c * m + jj + m / 2) := by
  rw [fftStage_localized n m c a hc (c * m + jj + m / 2) (by rw [Set.mem_Ico]; omega),
    innerPass_hi m (c * m) jj a hjj]

theorem fftStage_out (n m : ℕ) (a : ℕ → ℂ) (p : ℕ) (hp : n ≤ p) (hd : m ∣ n) :
    fftStage n m a p = a p := by
  rw [fftStage]
  refine foldl_untouched (fun kv => Set.Ico kv (kv + m)) (innerPass m)
    (innerPass_out_set m) ((List.range (n / m)).map (· * m)) a p ?_
  intro kv hkv
  obtain ⟨c, hc, rfl⟩ := List.mem_map.mp hkv
  rw [List.mem_range] at hc
  rw [Set.mem_Ico]
  have : (c + 1) * m ≤ n / m * m := Nat.mul_le_mul_right m hc
  rw [Nat.div_mul_cancel hd] at this
  have h2 : c * m + m = (c + 1) * m := by ring
  push_neg
  intro
  omega

theorem sum_range_double (n : ℕ) (f : ℕ → ℂ) :
    ∑ t ∈ Finset.range (2 * n), f t =
      (∑ u ∈ Finset.range n, f (2 * u)) + ∑ u ∈ Finset.range n, f (2 * u + 1) := by
  induction n with
  | zero => simp
  | succ n ih =>
    rw [show 2 * (n + 1) = 2 * n + 1 + 1 from by ring, Finset.sum_range_succ,
      Finset.sum_range_succ, ih, Finset.sum_range_succ, Finset.sum_range_succ]
    ring

theorem tw_neg_pi : tw (-Real.pi) = -1 := by
  apply Complex.ext <;> simp [tw]

/-- Per-block partial DFT after the stages of size up to `2^q`: block `b`
holds the `2^q`-point DFT of the stride-`2^(s-q)` subsequence starting at
`bitRev (s-q) b`. -/
noncomputable def dftPart (s q : ℕ) (v : ℕ → ℂ) (b j : ℕ) : ℂ :=
  ∑ t ∈ Finset.range (2 ^ q),
    v (bitRev (s - q) b + t * 2 ^ (s - q)) *
      tw ((j : ℝ) * (t : ℝ) * (-2 * Real.pi / (2 : ℝ) ^ q))

theorem dftPart_combine_lo (s q : ℕ) (hq : q + 1 ≤ s) (v : ℕ → ℂ) (b j : ℕ) :
    dftPart s (q + 1) v b j =
      dftPart s q v (2 * b) j +
        tw ((j : ℝ) * (-2 * Real.pi / (2 : ℝ) ^ (q + 1))) * dftPart s q v (2 * b + 1) j := by
  have hss : s - q = (s - (q + 1)) + 1 := by omega
  rw [dftPart, show (2:ℕ) ^ (q + 1) = 2 * 2 ^ q from by ring, sum_range_double]
  congr 1
  · rw [dftPart]
    refine Finset.sum_congr rfl fun u _ => ?_
    have hidx : bitRev (s - (q + 1)) b + 2 * u * 2 ^ (s - (q + 1)) =
        bitRev (s - q) (2 * b) + u * 2 ^ (s - q) := by
      rw [hss, bitRev_two_mul, pow_succ]
      ring
    rw [hidx]
    congr 2
    push_cast
    rw [pow_succ]
    field_simp
    ring
  · rw [dftPart, Finset.mul_sum]
    refine Finset.sum_congr rfl fun u _ => ?_
    have hidx : bitRev (s - (q + 1)) b + (2 * u + 1) * 2 ^ (s - (q + 1)) =
        bitRev (s - q) (2 * b + 1) + u * 2 ^ (s - q) := by
      rw [hss, bitRev_two_mul_add_one, pow_succ]
      ring
    rw [hidx]
    have hang : (j : ℝ) * ((2 * u + 1 : ℕ) : ℝ) * (-2 * Real.pi / (2 : ℝ) ^ (q + 1)) =
        (j : ℝ) * (-2 * Real.pi / (2 : ℝ) ^ (q + 1)) +
          (j : ℝ) * (u : ℝ) * (-2 * Real.pi / (2 : ℝ) ^ q) := by
      push_cast
      rw [pow_succ]
      field_simp
      ring
    rw [hang, tw_add]
    ring

theorem dftPart_combine_hi (s q : ℕ) (hq : q + 1 ≤ s) (v : ℕ → ℂ) (b jj : ℕ) :
    dftPart s (q + 1) v b (2 ^ q + jj) =
      dftPart s q v (2 * b) jj -
        tw ((jj : ℝ) * (-2 * Real.pi / (2 : ℝ) ^ (q + 1))) * dftPart s q v (2 * b + 1) jj := by
  have hss : s - q = (s - (q + 1)) + 1 := by omega
  rw [dftPart, show (2:ℕ) ^ (q + 1) = 2 * 2 ^ q from by ring, sum_range_double]
  have heven : ∀ u : ℕ,
      (((2 ^ q + jj : ℕ) : ℝ)) * ((2 * u : ℕ) : ℝ) * (-2 * Real.pi / (2 : ℝ) ^ (q + 1)) =
        2 * Real.pi * ((-(u : ℤ) : ℤ) : ℝ) +
          (jj : ℝ) * (u : ℝ) * (-2 * Real.pi / (2 : ℝ) ^ q) := by
    intro u
    push_cast
    rw [pow_succ]
    field_simp
    ring
  have hodd : ∀ u : ℕ,
      (((2 ^ q + jj : ℕ) : ℝ)) * ((2 * u + 1 : ℕ) : ℝ) * (-2 * Real.pi / (2 : ℝ) ^ (q + 1)) =
        2 * Real.pi * ((-(u : ℤ) : ℤ) : ℝ) +
          (-Real.pi +
            ((jj : ℝ) * (-2 * Real.pi / (2 : ℝ) ^ (q + 1)) +
              (jj : ℝ) * (u : ℝ) * (-2 * Real.pi / (2 : ℝ) ^ q))) := by
    intro u
    push_cast
    rw [pow_succ]
    field_simp
    ring
  have h1 : (∑ u ∈ Finset.range (2 ^ q),
      v (bitRev (s - (q + 1)) b + 2 * u * 2 ^ (s - (q + 1))) *
        tw (((2 ^ q + jj : ℕ) : ℝ) * ((2 * u : ℕ) : ℝ) * (-2 * Real.pi / (2 : ℝ) ^ (q + 1)))) =
      dftPart s q v (2 * b) jj := by
    rw [dftPart]
    refine Finset.sum_congr rfl fun u _ => ?_
    have hidx : bitRev (s - (q + 1)) b + 2 * u * 2 ^ (s - (q + 1)) =
        bitRev (s - q) (2 * b) + u * 2 ^ (s - q) := by
      rw [hss, bitRev_two_mul, pow_succ]
      ring
    rw [hidx, heven u, tw_add, tw_int_two_pi, one_mul]
  have h2 : (∑ u ∈ Finset.range (2 ^ q),
      v (bitRev (s - (q + 1)) b + (2 * u + 1) * 2 ^ (s - (q + 1))) *
        tw (((2 ^ q + jj : ℕ) : ℝ) * ((2 * u + 1 : ℕ) : ℝ) *
          (-2 * Real.pi / (2 : ℝ) ^ (q + 1)))) =
      -(tw ((jj : ℝ) * (-2 * Real.pi / (2 : ℝ) ^ (q + 1))) * dftPart s q v (2 * b + 1) jj) := by
    rw [dftPart, Finset.mul_sum, ← Finset.sum_neg_distrib]
    refine Finset.sum_congr rfl fun u _ => ?_
    have hidx : bitRev (s - (q + 1)) b + (2 * u + 1) * 2 ^ (s - (q + 1)) =
        bitRev (s - q) (2 * b + 1) + u * 2 ^ (s - q) := by
      rw [hss, bitRev_two_mul_add_one, pow_succ]
      ring
    rw [hidx, hodd u, tw_add, tw_int_two_pi, one_mul, tw_add, tw_neg_pi, tw_add]
    ring
  push_cast at h1 h2 ⊢
  rw [h1, h2]
  ring

/-- The array state after the Cooley-Tukey stages of sizes `2, 4, ..., 2^q`. -/
noncomputable def stageIter (n : ℕ) (a : ℕ → ℂ) : ℕ → (ℕ → ℂ)
  | 0 => a
  | q + 1 => fftStage n (2 ^ (q + 1)) (stageIter n a q)

theorem stageList_eq_aux (s : ℕ) : ∀ d r : ℕ, 1 ≤ r → d = s + 1 - r →
    stageList (2 ^ s) (2 ^ r) = (List.range d).map fun q => 2 ^ (r + q) := by
  intro d
  induction d with
  | zero =>
    intro r hr hd
    have hgt : 2 ^ s < 2 ^ r := by
      have : s + 1 ≤ r := by omega
      calc (2 : ℕ) ^ s < 2 ^ (s + 1) := Nat.pow_lt_pow_right (by norm_num) (by omega)
      _ ≤ 2 ^ r := Nat.pow_le_pow_right (by norm_num) this
    rw [stageList]
    rw [dif_neg (by omega)]
    simp
  | succ d ih =>
    intro r hr hd
    have hle : 2 ^ r ≤ 2 ^ s := Nat.pow_le_pow_right (by norm_num) (by omega)
    rw [stageList, dif_pos ⟨Nat.pos_pow_of_pos _ (by norm_num), hle⟩,
      show 2 * 2 ^ r = 2 ^ (r + 1) from by rw [pow_succ]; ring,
      ih (r + 1) (by omega) (by omega), List.range_succ_eq_map, List.map_cons,
      List.map_map]
    congr 1
    refine List.map_congr_left fun q _ => ?_
    simp only [Function.comp_apply]
    congr 1
    omega

theorem stageList_two (s : ℕ) :
    stageList (2 ^ s) 2 = (List.range s).map fun q => 2 ^ (1 + q) := by
  have h := stageList_eq_aux s s 1 le_rfl (by omega)
  rw [pow_one] at h
  rw [h]

theorem fold_stages (n : ℕ) (a : ℕ → ℂ) : ∀ d : ℕ,
    (((List.range d).map fun q => 2 ^ (1 + q)).foldl (fun b m => fftStage n m b) a) =
      stageIter n a d := by
  intro d
  induction d with
  | zero => rfl
  | succ d ih =>
    rw [List.range_succ, List.map_append, List.foldl_append, ih]
    simp only [List.map_cons, List.map_nil, List.foldl_cons, List.foldl_nil]
    rw [show 1 + d = d + 1 from by omega]
    rfl

theorem stageIter_eq_dftPart (s : ℕ) (v : ℕ → ℂ) :
    ∀ q, q ≤ s → ∀ b j : ℕ, b < 2 ^ (s - q) → j < 2 ^ q →
      stageIter (2 ^ s) (bitRevPass (2 ^ s) v) q (b * 2 ^ q + j) = dftPart s q v b j := by
  intro q
  induction q with
  | zero =>
    intro _ b j hb hj
    have hj0 : j = 0 := by omega
    subst hj0
    rw [stageIter]
    simp only [pow_zero, mul_one, add_zero]
    rw [bitRevPass_apply v (by simpa using hb), dftPart]
    simp [tw_zero]
  | succ q ih =>
    intro hq1 b j hb hj
    have hq : q ≤ s := by omega
    have hdiv : (2 : ℕ) ^ s / 2 ^ (q + 1) = 2 ^ (s - (q + 1)) :=
      Nat.pow_div hq1 (by norm_num)
    have hhalf : (2 : ℕ) ^ (q + 1) / 2 = 2 ^ q := by
      rw [pow_succ]
      exact Nat.mul_div_cancel _ (by norm_num)
    have hb2 : 2 * b < 2 ^ (s - q) := by
      have : (2 : ℕ) ^ (s - q) = 2 * 2 ^ (s - (q + 1)) := by
        rw [show s - q = (s - (q + 1)) + 1 from by omega, pow_succ]
        ring
      omega
    have hb21 : 2 * b + 1 < 2 ^ (s - q) := by
      have : (2 : ℕ) ^ (s - q) = 2 * 2 ^ (s - (q + 1)) := by
        rw [show s - q = (s - (q + 1)) + 1 from by omega, pow_succ]
        ring
      omega
    have hcast : (((2 : ℕ) ^ (q + 1) : ℕ) : ℝ) = (2 : ℝ) ^ (q + 1) := by push_cast; ring
    rcases Nat.lt_or_ge j (2 ^ q) with hjlo | hjhi
    · -- lower half of the block
      rw [stageIter]
      have hstage := fftStage_lo (2 ^ s) (2 ^ (q + 1)) b j
        (stageIter (2 ^ s) (bitRevPass (2 ^ s) v) q) (by rw [hdiv]; exact hb)
        (by rw [hhalf]; exact hjlo)
      rw [hstage, hhalf, hcast]
      rw [show b * 2 ^ (q + 1) + j = 2 * b * 2 ^ q + j from by rw [pow_succ]; ring,
        show 2 * b * 2 ^ q + j + 2 ^ q = (2 * b + 1) * 2 ^ q + j from by ring]
      rw [ih hq (2 * b) j hb2 hjlo, ih hq (2 * b + 1) j hb21 hjlo]
      exact (dftPart_combine_lo s q hq1 v b j).symm
    · -- upper half of the block
      obtain ⟨jj, rfl⟩ : ∃ jj, j = 2 ^ q + jj := ⟨j - 2 ^ q, by omega⟩
      have hjj : jj < 2 ^ q := by
        have : (2:ℕ) ^ (q + 1) = 2 * 2 ^ q := by rw [pow_succ]; ring
        omega
      rw [stageIter]
      have hidx : b * 2 ^ (q + 1) + (2 ^ q + jj) = b * 2 ^ (q + 1) + jj + 2 ^ (q + 1) / 2 := by
        rw [hhalf]
        ring
      rw [hidx]
      have hstage := fftStage_hi (2 ^ s) (2 ^ (q + 1)) b jj
        (stageIter (2 ^ s) (bitRevPass (2 ^ s) v) q) (by rw [hdiv]; exact hb)
        (by rw [hhalf]; exact hjj)
      rw [hstage, hhalf, hcast]
      rw [show b * 2 ^ (q + 1) + jj = 2 * b * 2 ^ q + jj from by rw [pow_succ]; ring,
        show 2 * b * 2 ^ q + jj + 2 ^ q = (2 * b + 1) * 2 ^ q + jj from by ring]
      rw [ih hq (2 * b) jj hb2 hjj, ih hq (2 * b + 1) jj hb21 hjj]
      exact (dftPart_combine_hi s q hq1 v b jj).symm

theorem fftRaw_eq_dft (s : ℕ) (v : ℕ → ℂ) : ∀ j : ℕ, j < 2 ^ s →
    fftRaw (2 ^ s) v j = dft (2 ^ s) v j := by
  intro j hj
  rw [fftRaw, fftLoop, stageList_two, fold_stages]
  have h := stageIter_eq_dftPart s v s le_rfl 0 j (by simp) hj
  rw [zero_mul, zero_add] at h
  rw [h, dftPart, dft]
  refine Finset.sum_congr rfl fun t _ => ?_
  rw [Nat.sub_self, bitRev_zero, pow_zero, mul_one, zero_add]
  congr 2
  push_cast
  ring

theorem dft_congr (n : ℕ) (y y' : ℕ → ℂ) (h : ∀ t, t < n → y t = y' t) (j : ℕ) :
    dft n y j = dft n y' j :=
  Finset.sum_congr rfl fun t ht => by rw [h t (Finset.mem_range.mp ht)]

theorem tw_geom_sum (n : ℕ) (hn : 0 < n) (u j : ℕ) (hu : u < n) (hj : j < n) :
    ∑ t ∈ Finset.range n, tw ((t : ℝ) * (2 * Real.pi * ((u : ℝ) - j) / n)) =
      if u = j then (n : ℂ) else 0 := by
  have hnR : (n : ℝ) ≠ 0 := by positivity
  rcases eq_or_ne u j with rfl | hne
  · rw [if_pos rfl]
    have hone : ∀ t ∈ Finset.range n,
        tw ((t : ℝ) * (2 * Real.pi * ((u : ℝ) - u) / n)) = 1 := by
      intro t _
      rw [show (t : ℝ) * (2 * Real.pi * ((u : ℝ) - u) / n) = 0 from by ring, tw_zero]
    rw [Finset.sum_congr rfl hone, Finset.sum_const, Finset.card_range,
      nsmul_eq_mul, mul_one]
  · rw [if_neg hne]
    have hterm : ∀ t ∈ Finset.range n,
        tw ((t : ℝ) * (2 * Real.pi * ((u : ℝ) - j) / n)) =
          tw (2 * Real.pi * ((u : ℝ) - j) / n) ^ t :=
      fun t _ => tw_nat_mul t _
    rw [Finset.sum_congr rfl hterm]
    have hne1 : tw (2 * Real.pi * ((u : ℝ) - j) / n) ≠ 1 := by
      refine tw_ne_one fun k hk => ?_
      have hreal : (u : ℝ) - j = k * n := by
        have hpi : (2 * Real.pi) ≠ 0 := by positivity
        have h3 := congrArg (fun z => z * (n : ℝ)) hk
        simp only at h3
        rw [div_mul_cancel₀ _ hnR] at h3
        refine mul_left_cancel₀ hpi ?_
        rw [h3]
        ring
      have hz : (u : ℤ) - j = k * n := by exact_mod_cast hreal
      rcases lt_trichotomy k 0 with hk0 | hk0 | hk0
      · have hb : k * (n : ℤ) ≤ -1 * n :=
          mul_le_mul_of_nonneg_right (by omega) (by positivity)
        omega
      · subst hk0
        simp at hz
        omega
      · have hb : 1 * (n : ℤ) ≤ k * n :=
          mul_le_mul_of_nonneg_right (by omega) (by positivity)
        omega
    rw [geom_sum_eq hne1]
    have hpow : tw (2 * Real.pi * ((u : ℝ) - j) / n) ^ n = 1 := by
      rw [← tw_nat_mul]
      rw [show (n : ℝ) * (2 * Real.pi * ((u : ℝ) - j) / n) =
          2 * Real.pi * ((((u : ℤ) - j) : ℤ) : ℝ) from by push_cast; field_simp]
      exact tw_int_two_pi _
    rw [hpow, sub_self, zero_div]

theorem dft_inversion (n : ℕ) (hn : 0 < n) (y : ℕ → ℂ) (j : ℕ) (hj : j < n) :
    dft n (fun t => starRingEnd ℂ (dft n y t)) j = (n : ℂ) * starRingEnd ℂ (y j) := by
  have hnR : (n : ℝ) ≠ 0 := by positivity
  rw [dft]
  have hterm : ∀ t ∈ Finset.range n,
      starRingEnd ℂ (dft n y t) * tw (-2 * Real.pi / n * (j * t)) =
        ∑ u ∈ Finset.range n, starRingEnd ℂ (y u) *
          tw ((t : ℝ) * (2 * Real.pi * ((u : ℝ) - j) / n)) := by
    intro t _
    rw [dft, map_sum, Finset.sum_mul]
    refine Finset.sum_congr rfl fun u _ => ?_
    rw [map_mul, tw_conj, mul_assoc, ← tw_add]
    congr 2
    field_simp
    ring
  rw [Finset.sum_congr rfl hterm, Finset.sum_comm]
  have hinner : ∀ u ∈ Finset.range n,
      (∑ t ∈ Finset.range n, starRingEnd ℂ (y u) *
        tw ((t : ℝ) * (2 * Real.pi * ((u : ℝ) - j) / n))) =
        if u = j then starRingEnd ℂ (y u) * n else 0 := by
    intro u hu
    rw [← Finset.mul_sum, tw_geom_sum n hn u j (Finset.mem_range.mp hu) hj]
    split_ifs with h
    · rfl
    · rw [mul_zero]
  rw [Finset.sum_congr rfl hinner, Finset.sum_ite_eq' (Finset.range n) j
    (fun u => starRingEnd ℂ (y u) * n), if_pos (Finset.mem_range.mpr hj), mul_comm]

/-- Round trip of the embedded FFT pair at power-of-two size, over ideal
reals: feeding the real and imaginary outputs of `computeFFT` into
`computeIFFT` returns the original samples exactly. -/
theorem fft_roundtrip_aux (s : ℕ) (x : ℕ → ℝ) (i : ℕ) (hi : i < 2 ^ s) :
    computeIFFT (2 ^ s) (fun t => (computeFFT (2 ^ s) x t).re)
      (fun t => (computeFFT (2 ^ s) x t).im) i = x i := by
  have hn : (0 : ℕ) < 2 ^ s := Nat.pos_pow_of_pos _ (by norm_num)
  have hnR : (((2 : ℕ) ^ s : ℕ) : ℝ) ≠ 0 := by positivity
  show (fftRaw (2 ^ s)
      (fun t => ⟨(computeFFT (2 ^ s) x t).re, -(computeFFT (2 ^ s) x t).im⟩) i).re /
      (((2 : ℕ) ^ s : ℕ) : ℝ) = x i
  have hstar : (fun t => (⟨(computeFFT (2 ^ s) x t).re,
      -(computeFFT (2 ^ s) x t).im⟩ : ℂ)) =
      fun t => starRingEnd ℂ (computeFFT (2 ^ s) x t) := by
    funext t
    apply Complex.ext <;> simp
  rw [hstar, fftRaw_eq_dft s _ i hi]
  have hcong : dft (2 ^ s) (fun t => starRingEnd ℂ (computeFFT (2 ^ s) x t)) i =
      dft (2 ^ s) (fun t => starRingEnd ℂ (dft (2 ^ s) (fun u => ((x u : ℝ) : ℂ)) t)) i := by
    refine dft_congr _ _ _ (fun t ht => ?_) i
    rw [computeFFT, fftRaw_eq_dft s _ t ht]
  rw [hcong, dft_inversion (2 ^ s) hn _ i hi, Complex.conj_ofReal]
  rw [show ((((2 : ℕ) ^ s : ℕ) : ℂ) * ((x i : ℝ) : ℂ)).re =
      (((2 : ℕ) ^ s : ℕ) : ℝ) * x i from by
    rw [show ((((2 : ℕ) ^ s : ℕ)) : ℂ) = (((((2 : ℕ) ^ s : ℕ)) : ℝ) : ℂ) from by push_cast; ring]
    rw [← Complex.ofReal_mul, Complex.ofReal_re]]
  field_simp

/-- C1: FFT/IFFT round-trip.  For every real-valued input of power-of-two
length `N`, `computeIFFT` applied to the (real, imag) output of `computeFFT`
reconstructs the original input exactly over ideal reals; and by construction
the inverse conjugates its input, runs the same forward radix-2 body
(`fftRaw`), and scales every output sample by `1/N`. -/
theorem C1_fft_ifft_roundtrip (N s : ℕ) (hN : N = 2 ^ s) (x : ℕ → ℝ) (i : ℕ)
    (hi : i < N) :
    computeIFFT N (fun t => (computeFFT N x t).re)
        (fun t => (computeFFT N x t).im) i = x i ∧
      computeIFFT N = fun re im p => (fftRaw N (fun t => ⟨re t, -im t⟩) p).re / N := by
  subst hN
  exact ⟨fft_roundtrip_aux s x i hi, rfl⟩

theorem C1_fft_ifft_roundtrip_witness :
    computeIFFT 2 (fun t => (computeFFT 2 (fun u => (u : ℝ)) t).re)
      (fun t => (computeFFT 2 (fun u => (u : ℝ)) t).im) 1 = 1 := by
  have h := (C1_fft_ifft_roundtrip 2 1 (by norm_num) (fun u => (u : ℝ)) 1
    (by norm_num)).1
  simpa using h

/-- The body of `applyBiquadFilter` (audioUtils.ts lines 41-60): direct-form-I
biquad over the whole buffer with history `(x1, x2, y1, y2)`. -/
noncomputable def biquadAux (b0 b1 b2 a0 a1 a2 : ℝ) :
    List ℝ → ℝ × ℝ × ℝ × ℝ → List ℝ
  | [], _ => []
  | x0 :: rest, (x1, x2, y1, y2) =>
    let y0 := (b0 * x0 + b1 * x1 + b2 * x2 - a1 * y1 - a2 * y2) / a0
    y0 :: biquadAux b0 b1 b2 a0 a1 a2 rest (x0, x1, y0, y1)

/-- `applyBiquadFilter` (audioUtils.ts lines 41-60), history initialised to 0. -/
noncomputable def applyBiquadFilter (b0 b1 b2 a0 a1 a2 : ℝ) (input : List ℝ) : List ℝ :=
  biquadAux b0 b1 b2 a0 a1 a2 input (0, 0, 0, 0)

/-- The two-stage K-weighting cascade of `calculateLoudness` (audioUtils.ts
lines 13-24): high shelf then high pass, with the published 48 kHz
coefficients. -/
noncomputable def kWeight (audioData : List ℝ) : List ℝ :=
  applyBiquadFilter 1.0 (-2.0) 1.0 1 (-1.99004745483398) 0.99007225036621
    (applyBiquadFilter 1.53512485958697 (-2.69169618940638) 1.19839281085285
      1 (-1.69065929318241) 0.73248077421585 audioData)

/-- Mean square of a buffer (audioUtils.ts lines 27-31). -/
noncomputable def meanSquare (l : List ℝ) : ℝ :=
  (l.map fun x => x * x).sum / l.length

/-- `calculateLoudness` (audioUtils.ts lines 10-36).  The source returns
`-Infinity` for an empty buffer or a zero mean square; that non-finite result
is modelled as `none`, any finite LUFS value as `some`. -/
noncomputable def calculateLoudness (audioData : List ℝ) : Option ℝ :=
  if audioData = [] then none
  else if meanSquare (kWeight audioData) = 0 then none
  else some (-0.691 + 10 * Real.logb 10 (meanSquare (kWeight audioData)))

/-- Running peak of absolute values, starting from 0 (audioUtils.ts lines
82-88). -/
def maxAbs (l : List ℝ) : ℝ :=
  l.foldl (fun m x => max m |x|) 0

/-- `normalizeLoudness` (audioUtils.ts lines 66-99): if the measured loudness
is non-finite return the input unchanged; otherwise apply the uniform gain
`10^((target-current)/20)` and, when the resulting peak exceeds 0.99, one
uniform additional attenuation `0.99/peak`. -/
noncomputable def normalizeLoudness (audioData : List ℝ) (targetLufs : ℝ := -16) :
    List ℝ :=
  match calculateLoudness audioData with
  | none => audioData
  | some currentLufs =>
    let gainDb := targetLufs - currentLufs
    let gain := (10 : ℝ) ^ (gainDb / 20)
    let output := audioData.map fun x => x * gain
    let peakAfterGain := maxAbs output
    if peakAfterGain > 0.99 then output.map fun x => x * (0.99 / peakAfterGain)
    else output

theorem biquadAux_length (b0 b1 b2 a0 a1 a2 : ℝ) :
    ∀ (l : List ℝ) (st : ℝ × ℝ × ℝ × ℝ),
      (biquadAux b0 b1 b2 a0 a1 a2 l st).length = l.length := by
  intro l
  induction l with
  | nil => intro st; rfl
  | cons x rest ih =>
    intro st
    obtain ⟨x1, x2, y1, y2⟩ := st
    rw [biquadAux, List.length_cons, List.length_cons, ih]

theorem biquadAux_zero (b0 b1 b2 a0 a1 a2 : ℝ) :
    ∀ n : ℕ, biquadAux b0 b1 b2 a0 a1 a2 (List.replicate n 0) (0, 0, 0, 0) =
      List.replicate n 0 := by
  intro n
  induction n with
  | zero => rfl
  | succ n ih =>
    rw [List.replicate_succ, biquadAux]
    simp only [mul_zero, add_zero, sub_zero, zero_sub, mul_comm, zero_div]
    rw [ih]

theorem kWeight_zero (n : ℕ) :
    kWeight (List.replicate n 0) = List.replicate n 0 := by
  rw [kWeight, applyBiquadFilter, applyBiquadFilter, biquadAux_zero, biquadAux_zero]

theorem meanSquare_zero (n : ℕ) : meanSquare (List.replicate n (0 : ℝ)) = 0 := by
  rw [meanSquare, List.map_replicate]
  simp

theorem calculateLoudness_zero (n : ℕ) :
    calculateLoudness (List.replicate n (0 : ℝ)) = none := by
  rw [calculateLoudness]
  rcases Nat.eq_zero_or_pos n with rfl | hn
  · rw [if_pos (show List.replicate 0 (0 : ℝ) = [] from rfl)]
  · rw [if_neg (by simp; omega), kWeight_zero, meanSquare_zero, if_pos rfl]

theorem normalizeLoudness_none (x : List ℝ) (t : ℝ)
    (h : calculateLoudness x = none) : normalizeLoudness x t = x := by
  rw [normalizeLoudness, h]

theorem calculateLoudness_none_iff (x : List ℝ) :
    calculateLoudness x = none ↔ x = [] ∨ meanSquare (kWeight x) = 0 := by
  rw [calculateLoudness]
  split_ifs with h1 h2
  · simp [h1]
  · simp [h2]
  · simp [h1, h2]

theorem normalizeLoudness_length (x : List ℝ) (t : ℝ) :
    (normalizeLoudness x t).length = x.length := by
  rw [normalizeLoudness]
  cases hc : calculateLoudness x with
  | none => rfl
  | some L =>
    simp only
    split_ifs <;> simp

/-- C9: Silence passthrough.  A buffer whose measured loudness is non-finite
(`calculateLoudness` = `none`, i.e. the empty buffer or any buffer with zero
K-weighted mean square — in particular every all-zero buffer) is returned by
`normalizeLoudness` unchanged, for any target. -/
theorem C9_silence_passthrough (x : List ℝ) (t : ℝ)
    (h : calculateLoudness x = none) :
    normalizeLoudness x t = x ∧
      (∀ y : List ℝ, calculateLoudness y = none ↔
        y = [] ∨ meanSquare (kWeight y) = 0) ∧
      ∀ n : ℕ, calculateLoudness (List.replicate n (0 : ℝ)) = none :=
  ⟨normalizeLoudness_none x t h, calculateLoudness_none_iff, calculateLoudness_zero⟩

theorem C9_silence_passthrough_witness :
    normalizeLoudness (List.replicate 3 (0 : ℝ)) (-16) = List.replicate 3 (0 : ℝ) :=
  (C9_silence_passthrough (List.replicate 3 0) (-16) (calculateLoudness_zero 3)).1

theorem foldl_maxAbs_init_le : ∀ (l : List ℝ) (m : ℝ),
    m ≤ l.foldl (fun m x => max m |x|) m := by
  intro l
  induction l with
  | nil => intro m; exact le_rfl
  | cons x rest ih =>
    intro m
    exact le_trans (le_max_left m |x|) (ih (max m |x|))

theorem foldl_maxAbs_init_mono : ∀ (l : List ℝ) (m m' : ℝ), m ≤ m' →
    l.foldl (fun m x => max m |x|) m ≤ l.foldl (fun m x => max m |x|) m' := by
  intro l
  induction l with
  | nil => intro m m' h; exact h
  | cons x rest ih =>
    intro m m' h
    exact ih _ _ (max_le_max h le_rfl)

theorem abs_le_maxAbs_aux : ∀ (l : List ℝ) (m x : ℝ), x ∈ l →
    |x| ≤ l.foldl (fun m x => max m |x|) m := by
  intro l
  induction l with
  | nil => intro m x hx; exact absurd hx (List.not_mem_nil x)
  | cons y rest ih =>
    intro m x hx
    rcases List.mem_cons.mp hx with rfl | hx
    · exact le_trans (le_max_right m |x|) (foldl_maxAbs_init_le rest _)
    · exact ih _ x hx

theorem maxAbs_nonneg (l : List ℝ) : 0 ≤ maxAbs l := foldl_maxAbs_init_le l 0

theorem abs_le_maxAbs (l : List ℝ) (x : ℝ) (hx : x ∈ l) : |x| ≤ maxAbs l :=
  abs_le_maxAbs_aux l 0 x hx

theorem maxAbs_map_mul_aux (c : ℝ) (hc : 0 ≤ c) : ∀ (l : List ℝ) (m : ℝ),
    (l.map fun x => x * c).foldl (fun m x => max m |x|) (m * c) =
      (l.foldl (fun m x => max m |x|) m) * c := by
  intro l
  induction l with
  | nil => intro m; rfl
  | cons x rest ih =>
    intro m
    rw [List.map_cons, List.foldl_cons, List.foldl_cons,
      show |x * c| = |x| * c from by rw [abs_mul, abs_of_nonneg hc],
      ← max_mul_of_nonneg _ _ hc, ih]

theorem maxAbs_map_mul (c : ℝ) (hc : 0 ≤ c) (l : List ℝ) :
    maxAbs (l.map fun x => x * c) = maxAbs l * c := by
  have h := maxAbs_map_mul_aux c hc l 0
  rw [zero_mul] at h
  exact h

theorem biquadAux_smul (b0 b1 b2 a0 a1 a2 c : ℝ) :
    ∀ (l : List ℝ) (x1 x2 y1 y2 : ℝ),
      biquadAux b0 b1 b2 a0 a1 a2 (l.map fun x => x * c)
        (x1 * c, x2 * c, y1 * c, y2 * c) =
      (biquadAux b0 b1 b2 a0 a1 a2 l (x1, x2, y1, y2)).map fun x => x * c := by
  intro l
  induction l with
  | nil => intro x1 x2 y1 y2; rfl
  | cons x0 rest ih =>
    intro x1 x2 y1 y2
    rw [List.map_cons, biquadAux, biquadAux, List.map_cons]
    have hy : (b0 * (x0 * c) + b1 * (x1 * c) + b2 * (x2 * c) - a1 * (y1 * c)
        - a2 * (y2 * c)) / a0 =
        (b0 * x0 + b1 * x1 + b2 * x2 - a1 * y1 - a2 * y2) / a0 * c := by
      rw [show b0 * (x0 * c) + b1 * (x1 * c) + b2 * (x2 * c) - a1 * (y1 * c)
        - a2 * (y2 * c) = (b0 * x0 + b1 * x1 + b2 * x2 - a1 * y1 - a2 * y2) * c
        from by ring, mul_div_right_comm]
    rw [hy, ih x0 x1 _ y1]

theorem kWeight_smul (c : ℝ) (x : List ℝ) :
    kWeight (x.map fun v => v * c) = (kWeight x).map fun v => v * c := by
  rw [kWeight, kWeight, applyBiquadFilter, applyBiquadFilter, applyBiquadFilter,
    applyBiquadFilter]
  have h1 := biquadAux_smul 1.53512485958697 (-2.69169618940638) 1.19839281085285
    1 (-1.69065929318241) 0.73248077421585 c x 0 0 0 0
  rw [zero_mul] at h1
  rw [h1]
  have h2 := biquadAux_smul 1.0 (-2.0) 1.0 1 (-1.99004745483398) 0.99007225036621 c
    (biquadAux 1.53512485958697 (-2.69169618940638) 1.19839281085285
      1 (-1.69065929318241) 0.73248077421585 x (0, 0, 0, 0)) 0 0 0 0
  rw [zero_mul] at h2
  rw [h2]

theorem meanSquare_smul (c : ℝ) (l : List ℝ) :
    meanSquare (l.map fun v => v * c) = meanSquare l * (c * c) := by
  rw [meanSquare, meanSquare, List.map_map, List.length_map]
  rw [show ((fun x => x * x) ∘ fun v => v * c) = fun v => (v * v) * (c * c) from by
    funext v
    simp only [Function.comp_apply]
    ring]
  rw [List.sum_map_mul_right, mul_div_right_comm]

theorem calculateLoudness_some_elim (x : List ℝ) (L : ℝ)
    (h : calculateLoudness x = some L) :
    x ≠ [] ∧ meanSquare (kWeight x) ≠ 0 ∧
      L = -0.691 + 10 * Real.logb 10 (meanSquare (kWeight x)) := by
  rw [calculateLoudness] at h
  by_cases h1 : x = []
  · rw [if_pos h1] at h
    exact absurd h (by simp)
  · rw [if_neg h1] at h
    by_cases h2 : meanSquare (kWeight x) = 0
    · rw [if_pos h2] at h
      exact absurd h (by simp)
    · rw [if_neg h2] at h
      exact ⟨h1, h2, (Option.some.inj h).symm⟩

theorem calculateLoudness_smul (c : ℝ) (hc : 0 < c) (x : List ℝ) (L : ℝ)
    (h : calculateLoudness x = some L) :
    calculateLoudness (x.map fun v => v * c) = some (L + 20 * Real.logb 10 c) := by
  obtain ⟨hne, hms, hL⟩ := calculateLoudness_some_elim x L h
  rw [calculateLoudness, if_neg (by simp [hne]), kWeight_smul, meanSquare_smul]
  have hcc : c * c ≠ 0 := by positivity
  rw [if_neg (mul_ne_zero hms hcc)]
  congr 1
  rw [Real.logb_mul hms hcc, Real.logb_mul (ne_of_gt hc) (ne_of_gt hc), hL]
  ring

theorem normalizeLoudness_some (x : List ℝ) (t L : ℝ)
    (h : calculateLoudness x = some L) :
    normalizeLoudness x t =
      if maxAbs (x.map fun v => v * (10 : ℝ) ^ ((t - L) / 20)) > 0.99
      then (x.map fun v => v * (10 : ℝ) ^ ((t - L) / 20)).map
        fun v => v * (0.99 / maxAbs (x.map fun v => v * (10 : ℝ) ^ ((t - L) / 20)))
      else x.map fun v => v * (10 : ℝ) ^ ((t - L) / 20) := by
  rw [normalizeLoudness, h]

theorem gain_pos (t L : ℝ) : (0 : ℝ) < (10 : ℝ) ^ ((t - L) / 20) :=
  Real.rpow_pos_of_pos (by norm_num) _

theorem logb_gain (t L : ℝ) :
    Real.logb 10 ((10 : ℝ) ^ ((t - L) / 20)) = (t - L) / 20 :=
  Real.logb_rpow (by norm_num) (by norm_num)

/-- Without limiting, the normalised buffer measures exactly the target. -/
theorem normalize_loudness_exact (x : List ℝ) (t L : ℝ)
    (h : calculateLoudness x = some L)
    (hp : ¬ maxAbs (x.map fun v => v * (10 : ℝ) ^ ((t - L) / 20)) > 0.99) :
    calculateLoudness (normalizeLoudness x t) = some t := by
  rw [normalizeLoudness_some x t L h, if_neg hp,
    calculateLoudness_smul _ (gain_pos t L) x L h, logb_gain]
  congr 1
  ring

/-- With limiting, the two uniform gains compose into one scale factor. -/
theorem normalize_limited_eq (x : List ℝ) (t L : ℝ)
    (h : calculateLoudness x = some L)
    (hp : maxAbs (x.map fun v => v * (10 : ℝ) ^ ((t - L) / 20)) > 0.99) :
    normalizeLoudness x t = x.map fun v => v * ((10 : ℝ) ^ ((t - L) / 20) *
      (0.99 / maxAbs (x.map fun v => v * (10 : ℝ) ^ ((t - L) / 20)))) := by
  rw [normalizeLoudness_some x t L h, if_pos hp, List.map_map]
  refine List.map_congr_left fun v _ => ?_
  simp only [Function.comp_apply]
  ring

theorem normalize_limited_loudness (x : List ℝ) (t L : ℝ)
    (h : calculateLoudness x = some L)
    (hp : maxAbs (x.map fun v => v * (10 : ℝ) ^ ((t - L) / 20)) > 0.99) :
    calculateLoudness (normalizeLoudness x t) =
      some (t + 20 * Real.logb 10
        (0.99 / maxAbs (x.map fun v => v * (10 : ℝ) ^ ((t - L) / 20)))) := by
  have hpeak : (0 : ℝ) < maxAbs (x.map fun v => v * (10 : ℝ) ^ ((t - L) / 20)) := by
    calc (0 : ℝ) < 0.99 := by norm_num
    _ < _ := hp
  have hcpos : (0 : ℝ) < (10 : ℝ) ^ ((t - L) / 20) *
      (0.99 / maxAbs (x.map fun v => v * (10 : ℝ) ^ ((t - L) / 20))) := by
    have := gain_pos t L
    positivity
  rw [normalize_limited_eq x t L h hp, calculateLoudness_smul _ hcpos x L h]
  congr 1
  rw [Real.logb_mul (ne_of_gt (gain_pos t L)) (by positivity), logb_gain]
  ring

/-- The peak of the normalised output never exceeds 0.99. -/
theorem normalize_peak_le (x : List ℝ) (t L : ℝ)
    (h : calculateLoudness x = some L) :
    maxAbs (normalizeLoudness x t) ≤ 0.99 := by
  rw [normalizeLoudness_some x t L h]
  split_ifs with hp
  · have hpeak : (0 : ℝ) < maxAbs (x.map fun v => v * (10 : ℝ) ^ ((t - L) / 20)) := by
      calc (0 : ℝ) < 0.99 := by norm_num
      _ < _ := hp
    rw [maxAbs_map_mul _ (by positivity), mul_comm,
      div_mul_cancel₀ _ (ne_of_gt hpeak)]
  · exact le_of_not_lt hp

/-- Value one step back (0 before the start of the buffer). -/
noncomputable def prevv (h : ℕ → ℝ) (s : ℕ) : ℝ := if s = 0 then 0 else h (s - 1)

/-- Value two steps back (0 before the start of the buffer). -/
noncomputable def prevv2 (h : ℕ → ℝ) (s : ℕ) : ℝ := if s ≤ 1 then 0 else h (s - 2)

/-- A sequence satisfying the direct-form-I recurrence is exactly what the
biquad filter produces. -/
theorem biquadAux_recurrence (b0 b1 b2 a0 a1 a2 : ℝ) (f g : ℕ → ℝ)
    (hrec : ∀ i : ℕ, g i = (b0 * f i + b1 * prevv f i + b2 * prevv2 f i
      - a1 * prevv g i - a2 * prevv2 g i) / a0) :
    ∀ cnt start : ℕ,
      biquadAux b0 b1 b2 a0 a1 a2 ((List.range cnt).map fun t => f (start + t))
        (prevv f start, prevv2 f start, prevv g start, prevv2 g start) =
        (List.range cnt).map fun t => g (start + t) := by
  intro cnt
  induction cnt with
  | zero => intro start; rfl
  | succ cnt ih =>
    intro start
    rw [List.range_succ_eq_map, List.map_cons, List.map_cons, List.map_map,
      List.map_map, biquadAux]
    have hy : (b0 * f (start + 0) + b1 * prevv f start + b2 * prevv2 f start
        - a1 * prevv g start - a2 * prevv2 g start) / a0 = g (start + 0) := by
      rw [add_zero]
      exact (hrec start).symm
    have hf2 : prevv2 f (start + 1) = prevv f start := by
      rw [prevv, prevv2]
      rcases Nat.eq_zero_or_pos start with rfl | hs
      · rw [if_pos (by omega), if_pos rfl]
      · rw [if_neg (by omega), if_neg (by omega),
          show start + 1 - 2 = start - 1 from by omega]
    have hg2 : prevv2 g (start + 1) = prevv g start := by
      rw [prevv, prevv2]
      rcases Nat.eq_zero_or_pos start with rfl | hs
      · rw [if_pos (by omega), if_pos rfl]
      · rw [if_neg (by omega), if_neg (by omega),
          show start + 1 - 2 = start - 1 from by omega]
    have hf1 : prevv f (start + 1) = f (start + 0) := by
      rw [prevv, if_neg (by omega), show start + 1 - 1 = start + 0 from by omega]
    have hg1 : prevv g (start + 1) = g (start + 0) := by
      rw [prevv, if_neg (by omega), show start + 1 - 1 = start + 0 from by omega]
    have hcomp1 : ((fun t => f (start + t)) ∘ Nat.succ) = fun t => f (start + 1 + t) := by
      funext t
      simp only [Function.comp_apply, Nat.succ_eq_add_one]
      congr 1
      omega
    have hcomp2 : ((fun t => g (start + t)) ∘ Nat.succ) = fun t => g (start + 1 + t) := by
      funext t
      simp only [Function.comp_apply, Nat.succ_eq_add_one]
      congr 1
      omega
    rw [hy, hcomp1, hcomp2]
    have := ih (start + 1)
    rw [hf1, hg1, hf2, hg2] at this
    rw [this]

theorem biquad_ofSeq (b0 b1 b2 a0 a1 a2 : ℝ) (f g : ℕ → ℝ)
    (hrec : ∀ i : ℕ, g i = (b0 * f i + b1 * prevv f i + b2 * prevv2 f i
      - a1 * prevv g i - a2 * prevv2 g i) / a0) (N : ℕ) :
    applyBiquadFilter b0 b1 b2 a0 a1 a2 ((List.range N).map f) =
      (List.range N).map g := by
  have h := biquadAux_recurrence b0 b1 b2 a0 a1 a2 f g hrec N 0
  rw [show prevv f 0 = 0 from rfl, show prevv2 f 0 = 0 from rfl,
    show prevv g 0 = 0 from rfl, show prevv2 g 0 = 0 from rfl,
    show ((List.range N).map fun t => f (0 + t)) = (List.range N).map f from
      List.map_congr_left fun t _ => by rw [zero_add],
    show ((List.range N).map fun t => g (0 + t)) = (List.range N).map g from
      List.map_congr_left fun t _ => by rw [zero_add]] at h
  rw [applyBiquadFilter, h]

/-- Unit impulse: the target K-weighted output of the counterexample buffer. -/
noncomputable def eSeq (i : ℕ) : ℝ := if i = 0 then 1 else 0

/-- Intermediate sequence: the unique stage-one output whose high-pass
filtering gives the unit impulse. -/
noncomputable def ySeq : ℕ → ℝ
  | 0 => 1
  | 1 => 2 * ySeq 0 + (-1.99004745483398)
  | i + 2 => 2 * ySeq (i + 1) - ySeq i + (if i = 0 then (0.99007225036621 : ℝ) else 0)

/-- The counterexample input samples: the unique buffer whose K-weighting
cascade output is the unit impulse. -/
noncomputable def xSeq : ℕ → ℝ
  | 0 => 1 / 1.53512485958697
  | 1 => (ySeq 1 + (-1.69065929318241) * ySeq 0 - (-2.69169618940638) * xSeq 0) /
      1.53512485958697
  | i + 2 => (ySeq (i + 2) + (-1.69065929318241) * ySeq (i + 1) +
      0.73248077421585 * ySeq i - (-2.69169618940638) * xSeq (i + 1) -
      1.19839281085285 * xSeq i) / 1.53512485958697

theorem ySeq_rec : ∀ i : ℕ, eSeq i = (1.0 * ySeq i + (-2.0) * prevv ySeq i +
    1.0 * prevv2 ySeq i - (-1.99004745483398) * prevv eSeq i
    - 0.99007225036621 * prevv2 eSeq i) / 1 := by
  intro i
  match i with
  | 0 =>
    rw [show prevv ySeq 0 = 0 from rfl, show prevv2 ySeq 0 = 0 from rfl,
      show prevv eSeq 0 = 0 from rfl, show prevv2 eSeq 0 = 0 from rfl]
    simp [eSeq, ySeq]
    norm_num
  | 1 =>
    rw [show prevv ySeq 1 = ySeq 0 from rfl, show prevv2 ySeq 1 = 0 from rfl,
      show prevv eSeq 1 = eSeq 0 from rfl, show prevv2 eSeq 1 = 0 from rfl]
    simp only [eSeq, ySeq]
    norm_num
  | (i + 2) =>
    rw [show prevv ySeq (i + 2) = ySeq (i + 1) from by
        rw [prevv, if_neg (by omega)]
        congr 1,
      show prevv2 ySeq (i + 2) = ySeq i from by
        rw [prevv2, if_neg (by omega)]
        congr 1,
      show prevv eSeq (i + 2) = eSeq (i + 1) from by
        rw [prevv, if_neg (by omega)]
        congr 1,
      show prevv2 eSeq (i + 2) = eSeq i from by
        rw [prevv2, if_neg (by omega)]
        congr 1]
    rw [show ySeq (i + 2) = 2 * ySeq (i + 1) - ySeq i +
      (if i = 0 then (0.99007225036621 : ℝ) else 0) from rfl]
    rw [show eSeq (i + 2) = 0 from by rw [eSeq, if_neg (by omega)],
      show eSeq (i + 1) = 0 from by rw [eSeq, if_neg (by omega)]]
    rcases eq_or_ne i 0 with rfl | hi
    · rw [if_pos rfl, show eSeq 0 = 1 from rfl]
      ring
    · rw [if_neg hi, show eSeq i = 0 from by rw [eSeq, if_neg hi]]
      ring

theorem xSeq_rec : ∀ i : ℕ, ySeq i = (1.53512485958697 * xSeq i +
    (-2.69169618940638) * prevv xSeq i + 1.19839281085285 * prevv2 xSeq i
    - (-1.69065929318241) * prevv ySeq i - 0.73248077421585 * prevv2 ySeq i) / 1 := by
  intro i
  match i with
  | 0 =>
    rw [show prevv xSeq 0 = 0 from rfl, show prevv2 xSeq 0 = 0 from rfl,
      show prevv ySeq 0 = 0 from rfl, show prevv2 ySeq 0 = 0 from rfl]
    rw [show xSeq 0 = 1 / 1.53512485958697 from rfl, show ySeq 0 = 1 from rfl]
    norm_num
  | 1 =>
    rw [show prevv xSeq 1 = xSeq 0 from rfl, show prevv2 xSeq 1 = 0 from rfl,
      show prevv ySeq 1 = ySeq 0 from rfl, show prevv2 ySeq 1 = 0 from rfl]
    rw [show xSeq 1 = (ySeq 1 + (-1.69065929318241) * ySeq 0
      - (-2.69169618940638) * xSeq 0) / 1.53512485958697 from rfl]
    field_simp
  | (i + 2) =>
    rw [show prevv xSeq (i + 2) = xSeq (i + 1) from by
        rw [prevv, if_neg (by omega)]
        congr 1,
      show prevv2 xSeq (i + 2) = xSeq i from by
        rw [prevv2, if_neg (by omega)]
        congr 1,
      show prevv ySeq (i + 2) = ySeq (i + 1) from by
        rw [prevv, if_neg (by omega)]
        congr 1,
      show prevv2 ySeq (i + 2) = ySeq i from by
        rw [prevv2, if_neg (by omega)]
        congr 1]
    rw [show xSeq (i + 2) = (ySeq (i + 2) + (-1.69065929318241) * ySeq (i + 1) +
      0.73248077421585 * ySeq i - (-2.69169618940638) * xSeq (i + 1) -
      1.19839281085285 * xSeq i) / 1.53512485958697 from rfl]
    field_simp
    ring

/-- The 100-sample counterexample buffer: its K-weighted output is the unit
impulse, so its loudness is known in closed form while its first sample is
large. -/
noncomputable def cexBuf : List ℝ := (List.range 100).map xSeq

theorem kWeight_cexBuf : kWeight cexBuf = (List.range 100).map eSeq := by
  rw [cexBuf, kWeight,
    biquad_ofSeq 1.53512485958697 (-2.69169618940638) 1.19839281085285
      1 (-1.69065929318241) 0.73248077421585 xSeq ySeq xSeq_rec 100,
    biquad_ofSeq 1.0 (-2.0) 1.0 1 (-1.99004745483398) 0.99007225036621
      ySeq eSeq ySeq_rec 100]

theorem eSeq_sq_sum : ∀ N : ℕ, 1 ≤ N →
    ((List.range N).map fun t => eSeq t * eSeq t).sum = 1 := by
  intro N
  induction N with
  | zero => omega
  | succ N ih =>
    intro _
    rcases Nat.eq_zero_or_pos N with rfl | hN
    · rw [show List.range 1 = [0] from rfl]
      norm_num [eSeq]
    · rw [List.range_succ, List.map_append, List.sum_append, ih hN]
      simp [show eSeq N = 0 from by rw [eSeq, if_neg (by omega)]]

theorem meanSquare_cexBuf : meanSquare (kWeight cexBuf) = 1 / 100 := by
  rw [kWeight_cexBuf, meanSquare, List.map_map, List.length_map, List.length_range]
  rw [show ((fun x => x * x) ∘ eSeq) = fun t => eSeq t * eSeq t from rfl]
  rw [eSeq_sq_sum 100 (by norm_num)]
  norm_num

/-- The measured loudness of the counterexample buffer. -/
noncomputable def cexL : ℝ := -0.691 + 10 * Real.logb 10 (1 / 100)

theorem cexL_value : cexL = -20.691 := by
  rw [cexL, show (1 / 100 : ℝ) = ((100 : ℝ))⁻¹ from by norm_num, Real.logb_inv,
    show (100 : ℝ) = 10 ^ (2 : ℕ) from by norm_num, Real.logb_pow,
    Real.logb_self_eq_one (by norm_num)]
  norm_num

theorem calculateLoudness_cexBuf : calculateLoudness cexBuf = some cexL := by
  rw [calculateLoudness, if_neg (by rw [cexBuf]; simp), meanSquare_cexBuf,
    if_neg (by norm_num), cexL]

/-- The peak of the counterexample buffer after the loudness gain. -/
noncomputable def cexPeak : ℝ :=
  maxAbs (cexBuf.map fun v => v * (10 : ℝ) ^ ((-16 - cexL) / 20))

theorem rpow_fifth_lb : (1.56 : ℝ) ≤ (10 : ℝ) ^ ((1 : ℝ) / 5) := by
  by_contra hlt
  push_neg at hlt
  have hpos : (0 : ℝ) ≤ (10 : ℝ) ^ ((1 : ℝ) / 5) :=
    le_of_lt (Real.rpow_pos_of_pos (by norm_num) _)
  have hpow : ((10 : ℝ) ^ ((1 : ℝ) / 5)) ^ (5 : ℕ) = 10 := by
    rw [← Real.rpow_natCast ((10 : ℝ) ^ ((1 : ℝ) / 5)) 5,
      ← Real.rpow_mul (by norm_num)]
    norm_num
  have h2 : ((10 : ℝ) ^ ((1 : ℝ) / 5)) ^ (5 : ℕ) < (1.56 : ℝ) ^ (5 : ℕ) :=
    pow_lt_pow_left₀ hlt hpos (by norm_num)
  rw [hpow] at h2
  norm_num at h2

theorem rpow_twohundredth_ub : (10 : ℝ) ^ ((1 : ℝ) / 200) ≤ 1.026 := by
  by_contra hlt
  push_neg at hlt
  have hpow : ((10 : ℝ) ^ ((1 : ℝ) / 200)) ^ (200 : ℕ) = 10 := by
    rw [← Real.rpow_natCast ((10 : ℝ) ^ ((1 : ℝ) / 200)) 200,
      ← Real.rpow_mul (by norm_num)]
    norm_num
  have h2 : (1.026 : ℝ) ^ (200 : ℕ) < ((10 : ℝ) ^ ((1 : ℝ) / 200)) ^ (200 : ℕ) :=
    pow_lt_pow_left₀ hlt (by norm_num) (by norm_num)
  rw [hpow] at h2
  norm_num at h2

theorem cexPeak_lb : (1.016 : ℝ) ≤ cexPeak := by
  have hx0mem : xSeq 0 ∈ cexBuf := by
    rw [cexBuf]
    exact List.mem_map.mpr ⟨0, List.mem_range.mpr (by norm_num), rfl⟩
  have hmem : xSeq 0 * (10 : ℝ) ^ ((-16 - cexL) / 20) ∈
      cexBuf.map fun v => v * (10 : ℝ) ^ ((-16 - cexL) / 20) :=
    List.mem_map.mpr ⟨xSeq 0, hx0mem, rfl⟩
  have h1 : xSeq 0 * (10 : ℝ) ^ ((-16 - cexL) / 20) ≤ cexPeak :=
    le_trans (le_abs_self _) (abs_le_maxAbs _ _ hmem)
  have hexp : (-16 - cexL) / 20 = (0.23455 : ℝ) := by
    rw [cexL_value]
    norm_num
  have hg : (10 : ℝ) ^ ((1 : ℝ) / 5) ≤ (10 : ℝ) ^ ((-16 - cexL) / 20) := by
    rw [hexp]
    exact (Real.rpow_le_rpow_left_iff (by norm_num)).mpr (by norm_num)
  have hgain : (1.56 : ℝ) ≤ (10 : ℝ) ^ ((-16 - cexL) / 20) :=
    le_trans rpow_fifth_lb hg
  have hx0 : xSeq 0 = 1 / 1.53512485958697 := rfl
  calc (1.016 : ℝ) ≤ (1 / 1.53512485958697) * 1.56 := by norm_num
  _ ≤ xSeq 0 * (10 : ℝ) ^ ((-16 - cexL) / 20) := by
      rw [hx0]
      exact mul_le_mul_of_nonneg_left hgain (by norm_num)
  _ ≤ cexPeak := h1

theorem cexPeak_gt : maxAbs (cexBuf.map fun v => v * (10 : ℝ) ^ ((-16 - cexL) / 20))
    > 0.99 :=
  lt_of_lt_of_le (by norm_num) cexPeak_lb

theorem cex_out_loudness : calculateLoudness (normalizeLoudness cexBuf (-16)) =
    some (-16 + 20 * Real.logb 10 (0.99 / cexPeak)) :=
  normalize_limited_loudness cexBuf (-16) cexL calculateLoudness_cexBuf cexPeak_gt

theorem cex_deviation :
    0.1 < |(-16 + 20 * Real.logb 10 (0.99 / cexPeak)) - (-16)| := by
  have hpk : (1.016 : ℝ) ≤ cexPeak := cexPeak_lb
  have hratio2 : (1.026 : ℝ) < cexPeak / 0.99 := by
    have h2 : (1.016 : ℝ) / 0.99 ≤ cexPeak / 0.99 :=
      (div_le_div_right (by norm_num)).mpr hpk
    have h3 : (1.026 : ℝ) < (1.016 : ℝ) / 0.99 := by norm_num
    linarith
  have hrp : (10 : ℝ) ^ ((1 : ℝ) / 200) < cexPeak / 0.99 :=
    lt_of_le_of_lt rpow_twohundredth_ub hratio2
  have hlogb : (1 : ℝ) / 200 < Real.logb 10 (cexPeak / 0.99) := by
    have h0 : Real.logb 10 ((10 : ℝ) ^ ((1 : ℝ) / 200)) = 1 / 200 :=
      Real.logb_rpow (by norm_num) (by norm_num)
    rw [← h0]
    exact Real.logb_lt_logb (by norm_num)
      (Real.rpow_pos_of_pos (by norm_num) _) hrp
  have hinv : Real.logb 10 (0.99 / cexPeak) = -Real.logb 10 (cexPeak / 0.99) := by
    rw [show (0.99 / cexPeak : ℝ) = (cexPeak / 0.99)⁻¹ from by rw [inv_div],
      Real.logb_inv]
  rw [hinv, show (-16 + 20 * -Real.logb 10 (cexPeak / 0.99)) - (-16) =
    -(20 * Real.logb 10 (cexPeak / 0.99)) from by ring, abs_neg,
    abs_of_pos (by linarith)]
  linarith

/-- C3 counterexample: the concrete non-silent buffer `cexBuf` (100 samples,
finite measured loudness) for which `normalizeLoudness` to target -16 LUFS
produces output whose measured loudness misses -16 by more than 0.1 dB,
because the peak limiter engages. -/
theorem C3_loudness_counterexample :
    calculateLoudness cexBuf = some cexL ∧
      calculateLoudness (normalizeLoudness cexBuf (-16)) =
        some (-16 + 20 * Real.logb 10 (0.99 / cexPeak)) ∧
      0.1 < |(-16 + 20 * Real.logb 10 (0.99 / cexPeak)) - (-16)| :=
  ⟨calculateLoudness_cexBuf, cex_out_loudness, cex_deviation⟩

/-- C3 (amended): for every buffer with finite measured loudness `L`,
`normalizeLoudness` to target -16 applies the uniform gain
`10^((-16-L)/20)`; the output peak never exceeds 0.99; when the gained peak
does not exceed 0.99 the output's measured loudness is exactly -16 (hence
within 0.1 dB); when the gained peak exceeds 0.99, one uniform additional
attenuation `0.99/peak` is applied (and the measured loudness then falls
below the target, as the counterexample shows). -/
theorem C3_loudness_normalization (x : List ℝ) (L : ℝ)
    (h : calculateLoudness x = some L) :
    maxAbs (normalizeLoudness x (-16)) ≤ 0.99 ∧
      (¬ maxAbs (x.map fun v => v * (10 : ℝ) ^ ((-16 - L) / 20)) > 0.99 →
        normalizeLoudness x (-16) = x.map (fun v => v * (10 : ℝ) ^ ((-16 - L) / 20)) ∧
        calculateLoudness (normalizeLoudness x (-16)) = some (-16)) ∧
      (maxAbs (x.map fun v => v * (10 : ℝ) ^ ((-16 - L) / 20)) > 0.99 →
        normalizeLoudness x (-16) = x.map fun v => v * ((10 : ℝ) ^ ((-16 - L) / 20) *
          (0.99 / maxAbs (x.map fun v => v * (10 : ℝ) ^ ((-16 - L) / 20))))) := by
  refine ⟨normalize_peak_le x (-16) L h, fun hp => ⟨?_, ?_⟩, fun hp => ?_⟩
  · rw [normalizeLoudness_some x (-16) L h, if_neg hp]
  · exact normalize_loudness_exact x (-16) L h hp
  · exact normalize_limited_eq x (-16) L h hp

theorem C3_loudness_normalization_witness :
    maxAbs (normalizeLoudness cexBuf (-16)) ≤ 0.99 :=
  (C3_loudness_normalization cexBuf cexL calculateLoudness_cexBuf).1

/-- `createHannWindow` (noiseReducer.ts lines 141-147). -/
noncomputable def hannWindow (size n : ℕ) : ℝ :=
  0.5 * (1 - Real.cos (2 * Real.pi * n / (size - 1 : ℕ)))

/-- Padded buffer length (noiseReducer.ts line 33):
`Math.ceil((len - FRAME_SIZE) / HOP_SIZE + 1) * HOP_SIZE + FRAME_SIZE`,
with the real-valued division and ceiling carried out over ℚ. -/
def paddedLength (len : ℕ) : ℕ :=
  (⌈((len : ℚ) - 960) / 480 + 1⌉ * 480 + 960).toNat

/-- Number of frames (noiseReducer.ts line 37). -/
def numFrames (len : ℕ) : ℕ := (paddedLength len - 960) / 480 + 1

theorem paddedLength_ge (len : ℕ) : len ≤ paddedLength len := by
  have hceil : ((len : ℚ) - 960) / 480 + 1 ≤ (⌈((len : ℚ) - 960) / 480 + 1⌉ : ℚ) :=
    Int.le_ceil _
  have h2 : (((len : ℚ) - 960) / 480) * 480 = (len : ℚ) - 960 :=
    div_mul_cancel₀ _ (by norm_num)
  have h1 : (len : ℚ) ≤ (⌈((len : ℚ) - 960) / 480 + 1⌉ : ℚ) * 480 + 960 := by
    nlinarith [hceil, h2]
  have h4 : (len : ℤ) ≤ ⌈((len : ℚ) - 960) / 480 + 1⌉ * 480 + 960 := by
    exact_mod_cast h1
  rw [paddedLength]
  omega

/-- The zero-padded input buffer (noiseReducer.ts lines 34-35). -/
noncomputable def paddedAudio (audio : List ℝ) : ℕ → ℝ :=
  fun i => if i < audio.length then audio.getD i 0 else 0

/-- One Hann-windowed analysis frame, zero-padded to the 1024-point transform
size (noiseReducer.ts lines 45-54). -/
noncomputable def buildFrame (audio : List ℝ) (f : ℕ) : ℕ → ℝ :=
  fun i => if i < 960 ∧ f * 480 + i < paddedLength audio.length
    then paddedAudio audio (f * 480 + i) * hannWindow 960 i else 0

/-- The forward spectrum of frame `f` (noiseReducer.ts line 57). -/
noncomputable def frameSpectrum (audio : List ℝ) (f k : ℕ) : ℂ :=
  computeFFT 1024 (buildFrame audio f) k

/-- Per-bin magnitude `sqrt(re² + im²)` (noiseReducer.ts line 64). -/
noncomputable def magnitude (audio : List ℝ) (f k : ℕ) : ℝ :=
  Real.sqrt ((frameSpectrum audio f k).re * (frameSpectrum audio f k).re +
    (frameSpectrum audio f k).im * (frameSpectrum audio f k).im)

/-- Per-bin phase: `Math.atan2(im, re)` is the principal argument of
`re + im·i` (noiseReducer.ts line 65). -/
noncomputable def phase (audio : List ℝ) (f k : ℕ) : ℝ :=
  (frameSpectrum audio f k).arg

/-- The mask clamp `Math.max(MIN_MASK, Math.min(1, mask))`
(noiseReducer.ts line 101). -/
noncomputable def clampMask (m : ℝ) : ℝ := max 0.15 (min 1 m)

/-- The masked spectrum rebuilt by the reconstruction loop (noiseReducer.ts
lines 96-113), described by the single write each array index receives:
bins `0..512` get `enhancedMag·(cos φ, sin φ)` directly, bins `513..1023`
get the mirror write `real[1024-k] = real[k]`, `imag[1024-k] = -imag[k]`
made at iteration `k = 1024 - idx`, and the (unused) indices past the array
keep their initial zero. -/
noncomputable def reconSpec (audio : List ℝ) (mask : ℕ → ℝ) (f : ℕ) : ℕ → ℂ :=
  fun idx =>
    if idx ≤ 512 then
      ⟨magnitude audio f idx * clampMask (mask (f * 513 + idx)) *
        Real.cos (phase audio f idx),
       magnitude audio f idx * clampMask (mask (f * 513 + idx)) *
        Real.sin (phase audio f idx)⟩
    else if idx ≤ 1023 then
      ⟨magnitude audio f (1024 - idx) * clampMask (mask (f * 513 + (1024 - idx))) *
        Real.cos (phase audio f (1024 - idx)),
       -(magnitude audio f (1024 - idx) * clampMask (mask (f * 513 + (1024 - idx))) *
        Real.sin (phase audio f (1024 - idx)))⟩
    else 0

/-- The inverse transform of a reconstructed frame (noiseReducer.ts line 116). -/
noncomputable def timeFrame (audio : List ℝ) (mask : ℕ → ℝ) (f : ℕ) : ℕ → ℝ :=
  computeIFFT 1024 (fun idx => (reconSpec audio mask f idx).re)
    (fun idx => (reconSpec audio mask f idx).im)

/-- The overlap-add signal accumulator (noiseReducer.ts lines 119-125): the
value each position holds after all frames have added
`timeFrame[i] * window[i]` at offset `frameIdx * HOP + i`. -/
noncomputable def outputAudioAcc (audio : List ℝ) (mask : ℕ → ℝ) (p : ℕ) : ℝ :=
  ∑ f ∈ Finset.range (numFrames audio.length),
    if f * 480 ≤ p ∧ p < f * 480 + 960 ∧ p < paddedLength audio.length
    then timeFrame audio mask f (p - f * 480) * hannWindow 960 (p - f * 480) else 0

/-- The accumulated squared-window energy (noiseReducer.ts line 123). -/
noncomputable def outputWindowAcc (audio : List ℝ) (p : ℕ) : ℝ :=
  ∑ f ∈ Finset.range (numFrames audio.length),
    if f * 480 ≤ p ∧ p < f * 480 + 960 ∧ p < paddedLength audio.length
    then hannWindow 960 (p - f * 480) * hannWindow 960 (p - f * 480) else 0

/-- The guarded overlap-add normalisation (noiseReducer.ts lines 128-133):
divide by the accumulated window energy exactly when it exceeds `1e-8`. -/
noncomputable def reconstructed (audio : List ℝ) (mask : ℕ → ℝ) (p : ℕ) : ℝ :=
  if outputWindowAcc audio p > 1e-8
  then outputAudioAcc audio mask p / outputWindowAcc audio p
  else outputAudioAcc audio mask p

/-- `processAudio` (noiseReducer.ts lines 23-139) with the neural inference
output supplied as the `mask` parameter: STFT, mask application,
reconstruction, truncation to the input length, and terminal loudness
normalisation to -16 LUFS. -/
noncomputable def processAudio (audio : List ℝ) (mask : ℕ → ℝ) : List ℝ :=
  normalizeLoudness ((List.range audio.length).map fun i => reconstructed audio mask i)

/-- C2: Mask floor invariant.  The gain actually applied to every stored
magnitude in the reconstruction (`clampMask` in `reconSpec`) lies in
`[0.15, 1.0]` for every raw inference value, and the raw values -5, 0.5
and 2.0 are applied as 0.15, 0.5 and 1.0 respectively. -/
theorem C2_mask_floor :
    (∀ m : ℝ, 0.15 ≤ clampMask m ∧ clampMask m ≤ 1) ∧
      clampMask (-5) = 0.15 ∧ clampMask 0.5 = 0.5 ∧ clampMask 2 = 1 := by
  refine ⟨fun m => ⟨le_max_left _ _, ?_⟩, ?_, ?_, ?_⟩
  · rw [clampMask]
    rw [max_le_iff]
    exact ⟨by norm_num, min_le_left _ _⟩
  · rw [clampMask]
    rw [show min 1 (-5 : ℝ) = -5 from by norm_num]
    norm_num
  · rw [clampMask]
    rw [show min 1 (0.5 : ℝ) = 0.5 from by norm_num]
    norm_num
  · rw [clampMask]
    rw [show min 1 (2 : ℝ) = 1 from by norm_num]
    norm_num

/-- C8: Denoiser output-length contract.  For every input buffer and every
mask tensor, `processAudio` returns exactly the input's length: the
reconstruction is truncated to the original length before the terminal
loudness normalisation, which itself preserves length. -/
theorem C8_output_length (audio : List ℝ) (mask : ℕ → ℝ) :
    (processAudio audio mask).length = audio.length ∧
      ∀ (x : List ℝ) (t : ℝ), (normalizeLoudness x t).length = x.length := by
  refine ⟨?_, normalizeLoudness_length⟩
  rw [processAudio, normalizeLoudness_length, List.length_map, List.length_range]

theorem dft_real_symm (n : ℕ) (hn : 0 < n) (x : ℕ → ℝ) (k : ℕ) (hk0 : 0 < k)
    (hkn : k ≤ n) :
    dft n (fun t => ((x t : ℝ) : ℂ)) (n - k) =
      starRingEnd ℂ (dft n (fun t => ((x t : ℝ) : ℂ)) k) := by
  have hnR : (n : ℝ) ≠ 0 := by positivity
  rw [dft, dft, map_sum]
  refine Finset.sum_congr rfl fun t _ => ?_
  rw [map_mul, Complex.conj_ofReal, tw_conj]
  congr 1
  have hcast : (((n - k : ℕ) : ℕ) : ℝ) = (n : ℝ) - k := by
    rw [Nat.cast_sub hkn]
  rw [show -2 * Real.pi / n * (((n - k : ℕ) : ℝ) * t) =
      -(-2 * Real.pi / n * ((k : ℝ) * t)) + 2 * Real.pi * (((-(t : ℤ)) : ℤ) : ℝ) from by
    rw [hcast]; push_cast; field_simp; ring]
  rw [tw_add, tw_int_two_pi, mul_one]

theorem computeFFT_symm (s : ℕ) (x : ℕ → ℝ) (k : ℕ) (hk0 : 0 < k) (hk : k < 2 ^ s) :
    computeFFT (2 ^ s) x (2 ^ s - k) = starRingEnd ℂ (computeFFT (2 ^ s) x k) := by
  rw [computeFFT, fftRaw_eq_dft s _ _ (by omega), fftRaw_eq_dft s _ _ hk]
  exact dft_real_symm (2 ^ s) (Nat.pos_pow_of_pos _ (by norm_num)) x k hk0 (le_of_lt hk)

/-- Generalisation of the round trip: if two real arrays agree, below the
transform size, with the real/imaginary parts of `computeFFT` of `x`, then
`computeIFFT` of them recovers `x`. -/
theorem ifft_inverts (s : ℕ) (x reF imF : ℕ → ℝ)
    (h : ∀ t, t < 2 ^ s → (⟨reF t, imF t⟩ : ℂ) = computeFFT (2 ^ s) x t)
    (i : ℕ) (hi : i < 2 ^ s) :
    computeIFFT (2 ^ s) reF imF i = x i := by
  have hn : (0 : ℕ) < 2 ^ s := Nat.pos_pow_of_pos _ (by norm_num)
  have hnR : (((2 : ℕ) ^ s : ℕ) : ℝ) ≠ 0 := by positivity
  show (fftRaw (2 ^ s) (fun t => ⟨reF t, -imF t⟩) i).re / (((2 : ℕ) ^ s : ℕ) : ℝ) = x i
  rw [fftRaw_eq_dft s _ i hi]
  have hcong : dft (2 ^ s) (fun t => (⟨reF t, -imF t⟩ : ℂ)) i =
      dft (2 ^ s) (fun t => starRingEnd ℂ (dft (2 ^ s) (fun u => ((x u : ℝ) : ℂ)) t)) i := by
    refine dft_congr _ _ _ (fun t ht => ?_) i
    have h1 : (⟨reF t, -imF t⟩ : ℂ) = starRingEnd ℂ (⟨reF t, imF t⟩ : ℂ) := by
      apply Complex.ext <;> simp
    rw [h1, h t ht, computeFFT, fftRaw_eq_dft s _ t ht]
  rw [hcong, dft_inversion (2 ^ s) hn _ i hi, Complex.conj_ofReal]
  rw [show ((((2 : ℕ) ^ s : ℕ) : ℂ) * ((x i : ℝ) : ℂ)).re =
      (((2 : ℕ) ^ s : ℕ) : ℝ) * x i from by
    rw [show ((((2 : ℕ) ^ s : ℕ)) : ℂ) = (((((2 : ℕ) ^ s : ℕ)) : ℝ) : ℂ) from by push_cast; ring]
    rw [← Complex.ofReal_mul, Complex.ofReal_re]]
  field_simp

theorem magnitude_abs (audio : List ℝ) (f k : ℕ) :
    magnitude audio f k = Complex.abs (frameSpectrum audio f k) := by
  rw [magnitude, Complex.abs_apply, Complex.normSq_apply]

theorem clampMask_two : clampMask 2 = 1 := by
  rw [clampMask, show min 1 (2 : ℝ) = 1 from by norm_num]
  norm_num

/-- Conjugation of an explicit complex pair negates its imaginary part. -/
theorem star_mk (a b : ℝ) : starRingEnd ℂ (⟨a, b⟩ : ℂ) = ⟨a, -b⟩ :=
  Complex.ext (Complex.conj_re _) (Complex.conj_im _)

/-- With every raw mask value 2 (applied as gain 1), the rebuilt spectrum is
exactly the frame spectrum, using the Hermitian symmetry of the DFT of a real
signal for the mirrored bins. -/
theorem reconSpec_spectrum (audio : List ℝ) (f idx : ℕ) (hidx : idx < 1024) :
    reconSpec audio (fun _ => 2) f idx = frameSpectrum audio f idx := by
  have habs : ∀ k, (⟨magnitude audio f k * clampMask 2 * Real.cos (phase audio f k),
      magnitude audio f k * clampMask 2 * Real.sin (phase audio f k)⟩ : ℂ) =
      frameSpectrum audio f k := by
    intro k
    rw [clampMask_two, mul_one, magnitude_abs, phase]
    apply Complex.ext
    · exact Complex.abs_mul_cos_arg _
    · exact Complex.abs_mul_sin_arg _
  by_cases h5 : idx ≤ 512
  · simp only [reconSpec]
    rw [if_pos h5]
    exact habs idx
  · have hten : (2 : ℕ) ^ 10 = 1024 := by norm_num
    have hsym : starRingEnd ℂ (frameSpectrum audio f (1024 - idx)) =
        frameSpectrum audio f idx := by
      have h2 := computeFFT_symm 10 (buildFrame audio f) (1024 - idx)
        (by omega) (by omega)
      have h3 : 2 ^ 10 - (1024 - idx) = idx := by omega
      rw [h3] at h2
      rw [frameSpectrum, frameSpectrum, show (1024 : ℕ) = 2 ^ 10 from hten.symm]
      exact h2.symm
    simp only [reconSpec]
    rw [if_neg h5, if_pos (show idx ≤ 1023 by omega), ← hsym, ← habs (1024 - idx),
      star_mk]

/-- With every raw mask value 2 the inverse transform returns the windowed
frame itself, by the round trip. -/
theorem timeFrame_mask_one (audio : List ℝ) (f i : ℕ) (hi : i < 1024) :
    timeFrame audio (fun _ => 2) f i = buildFrame audio f i := by
  have hten : (2 : ℕ) ^ 10 = 1024 := by norm_num
  rw [timeFrame, show (1024 : ℕ) = 2 ^ 10 from hten.symm]
  refine ifft_inverts 10 (buildFrame audio f) _ _ (fun t ht => ?_) i (by omega)
  have hr := reconSpec_spectrum audio f t (by omega)
  have heta : (⟨(reconSpec audio (fun _ => 2) f t).re,
      (reconSpec audio (fun _ => 2) f t).im⟩ : ℂ) = reconSpec audio (fun _ => 2) f t := by
    apply Complex.ext <;> rfl
  rw [heta, hr, frameSpectrum, show (1024 : ℕ) = 2 ^ 10 from hten.symm]

theorem hannWindow_zero : hannWindow 960 0 = 0 := by
  rw [hannWindow]
  norm_num

theorem hannWindow_one : hannWindow 960 1 = 0.5 * (1 - Real.cos (2 * Real.pi / 959)) := by
  rw [hannWindow]
  norm_num

theorem hannWindow_one_pos : 0 < hannWindow 960 1 := by
  have hπ := Real.pi_pos
  rw [hannWindow_one]
  have hcos : Real.cos (2 * Real.pi / 959) < 1 := by
    refine lt_of_le_of_ne (Real.cos_le_one _) fun h => ?_
    have h0 := (Real.cos_eq_one_iff_of_lt_of_lt (by nlinarith) (by nlinarith)).mp h
    nlinarith
  nlinarith

theorem hannWindow_one_le : hannWindow 960 1 ≤ 1e-4 := by
  have hπ := Real.pi_pos
  have hπ2 := Real.pi_lt_d2
  rw [hannWindow_one]
  have hcos := Real.one_sub_sq_div_two_le_cos (x := 2 * Real.pi / 959)
  nlinarith [mul_lt_mul'' hπ2 hπ2 (le_of_lt hπ) (le_of_lt hπ)]

theorem paddedLength_two : paddedLength 2 = 960 := by
  rw [paddedLength]
  norm_num
  rw [show ⌈(-(239 / 240) : ℚ)⌉ = 0 from by rw [Int.ceil_eq_iff] <;> norm_num]
  rfl

theorem numFrames_two : numFrames 2 = 1 := by
  rw [numFrames, paddedLength_two]

theorem outputAudioAcc_at_zero (audio : List ℝ) (mask : ℕ → ℝ) :
    outputAudioAcc audio mask 0 = 0 := by
  rw [outputAudioAcc]
  refine Finset.sum_eq_zero fun f _ => ?_
  split_ifs with h
  · rw [show 0 - f * 480 = 0 from by omega, hannWindow_zero, mul_zero]
  · rfl

theorem outputWindowAcc_at_zero (audio : List ℝ) :
    outputWindowAcc audio 0 = 0 := by
  rw [outputWindowAcc]
  refine Finset.sum_eq_zero fun f _ => ?_
  split_ifs with h
  · rw [show 0 - f * 480 = 0 from by omega, hannWindow_zero, mul_zero]
  · rfl

theorem reconstructed_at_zero (audio : List ℝ) (mask : ℕ → ℝ) :
    reconstructed audio mask 0 = 0 := by
  rw [reconstructed, outputWindowAcc_at_zero, outputAudioAcc_at_zero]
  norm_num

theorem outputWindowAcc_pair :
    outputWindowAcc [0, (1:ℝ)] 1 = hannWindow 960 1 * hannWindow 960 1 := by
  rw [outputWindowAcc]
  rw [show ([0, (1:ℝ)] : List ℝ).length = 2 from rfl, numFrames_two, paddedLength_two]
  rw [Finset.sum_range_one]
  rw [if_pos (by norm_num)]

theorem timeFrame_pair :
    timeFrame [0, (1:ℝ)] (fun _ => 2) 0 1 = hannWindow 960 1 := by
  rw [timeFrame_mask_one _ _ _ (by norm_num)]
  simp only [buildFrame, paddedAudio]
  rw [show ([0, (1:ℝ)] : List ℝ).length = 2 from rfl, paddedLength_two]
  norm_num [List.getD_cons_succ, List.getD_cons_zero]

theorem outputAudioAcc_pair :
    outputAudioAcc [0, (1:ℝ)] (fun _ => 2) 1 = hannWindow 960 1 * hannWindow 960 1 := by
  rw [outputAudioAcc]
  rw [show ([0, (1:ℝ)] : List ℝ).length = 2 from rfl, numFrames_two, paddedLength_two]
  rw [Finset.sum_range_one]
  rw [if_pos (by norm_num)]
  norm_num [timeFrame_pair]

/-- C7 counterexample: with input `[0, 1]` and every raw mask value 2 the
accumulated window energy at sample 1 is `hann(1)² ≈ 1.07e-10 ≤ 1e-8`, so no
division happens there, yet the overlap-added sample equals `hann(1)² ≠ 0`:
the sample is NOT left as zero. -/
theorem C7_overlap_add_guard_counterexample :
    ¬ outputWindowAcc [0, (1:ℝ)] 1 > 1e-8 ∧
      reconstructed [0, (1:ℝ)] (fun _ => 2) 1 ≠ 0 := by
  have hw := hannWindow_one_pos
  have hle := hannWindow_one_le
  have hacc : outputWindowAcc [0, (1:ℝ)] 1 ≤ 1e-8 := by
    rw [outputWindowAcc_pair]
    nlinarith
  refine ⟨not_lt.mpr hacc, ?_⟩
  rw [reconstructed, if_neg (not_lt.mpr hacc), outputAudioAcc_pair]
  exact ne_of_gt (mul_pos hw hw)

/-- C7 (amended): each output sample is divided by the accumulated
squared-window energy exactly when that energy exceeds `1e-8`; where it does
not, the sample is left at its accumulated overlap-add value (no division is
performed) — which is exactly zero at index 0, but need not be zero in
general. -/
theorem C7_overlap_add_guard (audio : List ℝ) (mask : ℕ → ℝ) (p : ℕ)
    (h : ¬ outputWindowAcc audio p > 1e-8) :
    reconstructed audio mask p = outputAudioAcc audio mask p ∧
      (∀ q, outputWindowAcc audio q > 1e-8 →
        reconstructed audio mask q = outputAudioAcc audio mask q / outputWindowAcc audio q) ∧
      reconstructed audio mask 0 = 0 := by
  refine ⟨?_, fun q hq => ?_, reconstructed_at_zero audio mask⟩
  · rw [reconstructed, if_neg h]
  · rw [reconstructed, if_pos hq]

theorem C7_overlap_add_guard_witness :
    reconstructed [(1:ℝ)] (fun _ => 3) 0 = outputAudioAcc [(1:ℝ)] (fun _ => 3) 0 := by
  have h : ¬ outputWindowAcc [(1:ℝ)] 0 > 1e-8 := by
    rw [outputWindowAcc_at_zero]
    norm_num
  exact (C7_overlap_add_guard [(1:ℝ)] (fun _ => 3) 0 h).1

/-- Ascending numeric sort `(a, b) => a - b` (audioEnhancer.ts line 82). -/
noncomputable def sortAsc (l : List ℝ) : List ℝ := l.mergeSort (fun a b => a ≤ b)

/-- Descending numeric sort `(a, b) => b - a` (audioEnhancer.ts line 397). -/
noncomputable def sortDesc (l : List ℝ) : List ℝ := l.mergeSort (fun a b => b ≤ a)

/-- `sigmoid` (audioEnhancer.ts lines 175-177). -/
noncomputable def sigmoid (x : ℝ) : ℝ := 1 / (1 + Real.exp (-x))

/-- Per-frame RMS in dB (audioEnhancer.ts lines 71-80):
`20 * log10(sqrt(sumSquared / 1440) + 1e-10)` over 30 ms frames of
1440 samples at 48 kHz. -/
noncomputable def frameRmsDb (audio : List ℝ) (f : ℕ) : ℝ :=
  20 * Real.logb 10 (Real.sqrt
    ((∑ i ∈ Finset.range 1440, audio.getD (f * 1440 + i) 0 * audio.getD (f * 1440 + i) 0)
      / 1440) + 1e-10)

/-- The one-pole low-pass state and accumulated squared low-pass energy of
the speech-likelihood feature 3 (audioEnhancer.ts lines 130-137):
`lpState += alpha * (x_i - lpState); lowEnergy += lpState * lpState`. -/
noncomputable def lpAccum (α : ℝ) (x : ℕ → ℝ) : ℕ → ℝ × ℝ
  | 0 => (0, 0)
  | i + 1 =>
    let p := lpAccum α x i
    let s := p.1 + α * (x i - p.1)
    (s, p.2 + s * s)

/-- The pre-clamp speech-likelihood score of one frame
(audioEnhancer.ts lines 110-166): energy, zero-crossing rate,
low-frequency energy share and lag-1 autocorrelation combined through
sigmoids with weights 0.25 / 0.2 / 0.25 / 0.25. -/
noncomputable def speechScore (audio : List ℝ) (fs f : ℕ) : ℝ :=
  let start := f * fs
  let energy := (∑ i ∈ Finset.range fs,
    audio.getD (start + i) 0 * audio.getD (start + i) 0) / fs
  let zcr := (((Finset.Ico 1 fs).filter fun i =>
    ¬((0 ≤ audio.getD (start + i) 0) ↔ (0 ≤ audio.getD (start + i - 1) 0))).card : ℝ) / fs
  let α := 1 - Real.exp (-2 * Real.pi * 500 / 48000)
  let lowEnergy := (lpAccum α (fun i => audio.getD (start + i) 0) fs).2 / fs
  let lfRatio := lowEnergy / (energy + 1e-10)
  let ac1 := (∑ i ∈ Finset.Ico 1 fs,
    audio.getD (start + i) 0 * audio.getD (start + i - 1) 0) / ((fs : ℝ) - 1)
  let normalizedAc1 := ac1 / (energy + 1e-10)
  let energyDb := 10 * Real.logb 10 (energy + 1e-10)
  0.25 * sigmoid ((energyDb + 60) / 12) + 0.2 * (1 - sigmoid ((zcr - 0.1) / 0.05)) +
    0.25 * sigmoid ((lfRatio - 0.3) / 0.1) + 0.25 * sigmoid (normalizedAc1 / 0.3)

/-- `medianFilter` (audioEnhancer.ts lines 179-190): per index, the middle
element of the ascending sort of the slice
`[max 0 (i - ⌊w/2⌋), min len (i + ⌊w/2⌋ + 1))`. -/
noncomputable def medianFilter (arr : List ℝ) (w : ℕ) : List ℝ :=
  (List.range arr.length).map fun i =>
    let lo := i - w / 2
    let hi := min arr.length (i + w / 2 + 1)
    let win := sortAsc ((arr.drop lo).take (hi - lo))
    win.getD (win.length / 2) 0

/-- `calculateSpeechLikelihood` (audioEnhancer.ts lines 103-173): per-frame
score clamped to `[0, 1]`, then a width-1 median filter. -/
noncomputable def calculateSpeechLikelihood (audio : List ℝ) (numFrames fs : ℕ) : List ℝ :=
  medianFilter ((List.range numFrames).map fun f =>
    max 0 (min 1 (speechScore audio fs f))) 1

/-- The analysis record returned by `analyzeAudioLevels`
(audioEnhancer.ts lines 48-55). -/
structure AudioAnalysis where
  p10Db : ℝ
  p90Db : ℝ
  estimatedSnr : ℝ
  speechLikelihoodFrames : List ℝ

/-- `analyzeAudioLevels` (audioEnhancer.ts lines 57-101): 30 ms frame RMS
in dB, sorted ascending; the 10th/90th percentile indices
`Math.floor(numFrames * 0.1)` and `Math.floor(numFrames * 0.9)` are the
exact natural floors `numFrames / 10` and `numFrames * 9 / 10` over ideal
reals; defaults `(-60, -30, 30, [])` when no full frame fits. -/
noncomputable def analyzeAudioLevels (audio : List ℝ) : AudioAnalysis :=
  let numFrames := audio.length / 1440
  if numFrames = 0 then ⟨-60, -30, 30, []⟩
  else
    let sorted := sortAsc ((List.range numFrames).map (frameRmsDb audio))
    let p10Db := sorted.getD (numFrames / 10) (-80)
    let p90Db := sorted.getD (numFrames * 9 / 10) (-30)
    ⟨p10Db, p90Db, p90Db - p10Db, calculateSpeechLikelihood audio numFrames 1440⟩

/-- The gate configuration returned by `calculateAdaptiveThreshold`
(audioEnhancer.ts lines 192-223). -/
structure AdaptiveGateConfig where
  threshold : ℝ
  holdTime : ℝ
  softKnee : ℝ

/-- `calculateAdaptiveThreshold` (audioEnhancer.ts lines 192-223): margin
8/12/18/25 dB against the SNR bands 35/25/15, threshold
`min(p10 + margin, (p90 - 22) - 6)` then clamped by
`Math.max(-70, Math.min(-30, threshold))`; hold time 100/150/200 ms and
soft knee 3/6 dB against SNR bands 20/10. -/
noncomputable def calculateAdaptiveThreshold (a : AudioAnalysis) : AdaptiveGateConfig :=
  let margin : ℝ :=
    if a.estimatedSnr > 35 then 8
    else if a.estimatedSnr > 25 then 12
    else if a.estimatedSnr > 15 then 18
    else 25
  let threshold := a.p10Db + margin
  let threshold := min threshold ((a.p90Db - 22) - 6)
  let threshold := max (-70) (min (-30) threshold)
  ⟨threshold,
    if a.estimatedSnr > 20 then 100 else if a.estimatedSnr > 10 then 150 else 200,
    if a.estimatedSnr > 20 then 3 else 6⟩

/-- C4: Adaptive gate threshold formula.  For every analysis produced by
`analyzeAudioLevels` the estimated SNR is `p90Db - p10Db`, and the gate
threshold computed by `calculateAdaptiveThreshold` equals
`min(p10 + margin, (p90 - 22) - 6)` clamped to `[-70, -30]`, with margin
8/12/18/25 dB according to SNR > 35 / > 25 / > 15 / otherwise. -/
theorem C4_adaptive_threshold (audio : List ℝ) (b : AudioAnalysis)
    (hb : b = analyzeAudioLevels audio) :
    b.estimatedSnr = b.p90Db - b.p10Db ∧
      (calculateAdaptiveThreshold b).threshold =
        max (-70) (min (-30) (min (b.p10Db +
          (if b.estimatedSnr > 35 then 8 else if b.estimatedSnr > 25 then 12
            else if b.estimatedSnr > 15 then 18 else 25)) ((b.p90Db - 22) - 6))) := by
  constructor
  · subst hb
    rw [analyzeAudioLevels]
    by_cases h : audio.length / 1440 = 0
    · rw [if_pos h]
      norm_num
    · rw [if_neg h]
  · rfl

theorem C4_adaptive_threshold_witness :
    (analyzeAudioLevels ([] : List ℝ)).estimatedSnr =
        (analyzeAudioLevels ([] : List ℝ)).p90Db -
          (analyzeAudioLevels ([] : List ℝ)).p10Db ∧
      (calculateAdaptiveThreshold (analyzeAudioLevels ([] : List ℝ))).threshold =
        max (-70) (min (-30)
          (min ((analyzeAudioLevels ([] : List ℝ)).p10Db +
            (if (analyzeAudioLevels ([] : List ℝ)).estimatedSnr > 35 then 8
              else if (analyzeAudioLevels ([] : List ℝ)).estimatedSnr > 25 then 12
              else if (analyzeAudioLevels ([] : List ℝ)).estimatedSnr > 15 then 18
              else 25))
            (((analyzeAudioLevels ([] : List ℝ)).p90Db - 22) - 6))) :=
  C4_adaptive_threshold [] _ rfl

/-- The trailing-window RMS of the gate (audioEnhancer.ts lines 252-258):
sum of squares over `j ∈ [max 0 (i - 480), i]`, divided by the window length
`i - start + 1` (the 10 ms window is `⌊48000 * 0.01⌋ = 480` samples). -/
noncomputable def gateRms (audio : List ℝ) (i : ℕ) : ℝ :=
  Real.sqrt ((∑ j ∈ Finset.Icc (i - 480) i, audio.getD j 0 * audio.getD j 0)
    / ((i : ℝ) - ((i - 480 : ℕ) : ℝ) + 1))

/-- The per-sample speech probability lookup (audioEnhancer.ts lines 260-265):
`speechLikelihood[min(⌊i / 1440⌋, length - 1)] ?? 0` (so 0 for the empty
list, where the JS index is -1 and the lookup is undefined). -/
noncomputable def gateSpeechProb (sl : List ℝ) (i : ℕ) : ℝ :=
  if sl.isEmpty then 0 else sl.getD (min (i / 1440) (sl.length - 1)) 0

/-- One gate decision (audioEnhancer.ts lines 267-301): the effective
threshold lowered by `10^(-(speechProb * 10)/20)`, the three-way soft-knee
branch updating the hold counter, then the speech-probability gain floors
0.6 / 0.35 / 0.15.  Returns (targetGain, holdCounter'). -/
noncomputable def gateTarget (thLin knee : ℝ) (holdSamples : ℕ) (rms prob : ℝ)
    (hold : ℕ) : ℝ × ℕ :=
  let effT := thLin * (10 : ℝ) ^ (-(prob * 10) / 20)
  let base : ℝ × ℕ :=
    if rms > effT * (1 + knee) then (1, holdSamples)
    else if rms > effT * (1 - knee) then
      let kneePos := (rms / effT - (1 - knee)) / (2 * knee)
      (kneePos, if kneePos > 0.5 then holdSamples else hold)
    else if 0 < hold then (1, hold - 1)
    else (0, hold)
  (if prob > 0.6 then max base.1 0.6
    else if prob > 0.35 then max base.1 0.35
    else if prob > 0.15 then max base.1 0.15
    else base.1, base.2)

/-- The gate's smoothing state after the first `i` samples
(audioEnhancer.ts lines 248-308): `gateGain` starts at 0 and moves toward
the target with the 1 ms attack coefficient `1 - exp(-1/48)` when opening
and the 50 ms release coefficient `1 - exp(-1/2400)` when closing. -/
noncomputable def gateState (thLin knee : ℝ) (holdSamples : ℕ) (audio sl : List ℝ) :
    ℕ → ℝ × ℕ
  | 0 => (0, 0)
  | i + 1 =>
    let st := gateState thLin knee holdSamples audio sl i
    let t := gateTarget thLin knee holdSamples (gateRms audio i) (gateSpeechProb sl i) st.2
    let c := if t.1 > st.1 then 1 - Real.exp (-1 / 48) else 1 - Real.exp (-1 / 2400)
    (st.1 + c * (t.1 - st.1), t.2)

/-- `applyAdaptiveNoiseGate` (audioEnhancer.ts lines 228-312):
`thresholdLinear = 10^(threshold/20)`, `softKneeLinear = softKnee/20`,
`holdSamples = ⌊holdTime/1000 * 48000⌋`; each output sample is the input
sample times the smoothed gate gain after processing it. -/
noncomputable def applyAdaptiveNoiseGate (cfg : AdaptiveGateConfig) (sl : List ℝ)
    (audio : List ℝ) : List ℝ :=
  let thLin := (10 : ℝ) ^ (cfg.threshold / 20)
  let knee := cfg.softKnee / 20
  let holdSamples := ⌊cfg.holdTime / 1000 * 48000⌋₊
  (List.range audio.length).map fun i =>
    audio.getD i 0 * (gateState thLin knee holdSamples audio sl (i + 1)).1

/-- The 2 ms local average of absolute values before sample `i`
(audioEnhancer.ts lines 322-327): window `⌊48000 * 0.002⌋ = 96`. -/
noncomputable def clickAvg (audio : List ℝ) (i : ℕ) : ℝ :=
  (∑ j ∈ Finset.Ico (i - 96) i, |audio.getD j 0|) / 96

/-- The click-detection condition of iteration `i` of `applyClickRemover`
(audioEnhancer.ts lines 319-341): in-range index, local average above
0.0001, sample more than 3x the local average, and no sustained follower
above `avg * 3 * 0.7` in the next `min(96, len - i - 1)` samples. -/
def clickCond (audio : List ℝ) (i : ℕ) : Prop :=
  96 ≤ i ∧ i + 96 < audio.length ∧ clickAvg audio i > 0.0001 ∧
    |audio.getD i 0| > clickAvg audio i * 3 ∧
    ∀ j ∈ Finset.Icc 1 (min 96 (audio.length - i - 1)),
      |audio.getD (i + j) 0| ≤ clickAvg audio i * 3 * 0.7

open scoped Classical in
/-- `applyClickRemover` (audioEnhancer.ts lines 316-353), described by the
last write each output index receives: iteration `p` (if it detects a click)
writes `(audio[p-1] + audio[min(p+2, len-1)])/2` at `p`, otherwise iteration
`p-1` (if it detected a click) wrote
`audio[min(p+1, len-1)] * 0.7 + audio[p-2] * 0.3` at `p`, otherwise the
initial copy of the input remains.  All interpolation reads are from the
unmodified input array. -/
noncomputable def applyClickRemover (audio : List ℝ) : List ℝ :=
  (List.range audio.length).map fun p =>
    if clickCond audio p then
      (audio.getD (p - 1) 0 + audio.getD (min (p + 2) (audio.length - 1)) 0) / 2
    else if 1 ≤ p ∧ clickCond audio (p - 1) then
      audio.getD (min (p + 1) (audio.length - 1)) 0 * 0.7 + audio.getD (p - 2) 0 * 0.3
    else audio.getD p 0

/-- Per-frame total and low-pass energies of the breath reducer
(audioEnhancer.ts lines 373-394): raw sums over the 30 ms frame (1440
samples), with the one-pole low-pass `lpState += 0.1 * (x - lpState)`. -/
noncomputable def breathFrameEnergy (audio : List ℝ) (f : ℕ) : ℝ :=
  ∑ i ∈ Finset.range 1440,
    audio.getD (f * 1440 + i) 0 * audio.getD (f * 1440 + i) 0

/-- The breath detector's per-frame low-frequency share
(audioEnhancer.ts lines 384-393): `lowEnergy / totalEnergy` when the raw
total energy exceeds 0.00001, else 0. -/
noncomputable def breathFrameLowRatio (audio : List ℝ) (f : ℕ) : ℝ :=
  if breathFrameEnergy audio f > 0.00001 then
    (lpAccum 0.1 (fun i => audio.getD (f * 1440 + i) 0) 1440).2 / breathFrameEnergy audio f
  else 0

/-- The breath reducer's speech level (audioEnhancer.ts lines 396-398):
the energy at the top-10% index of the descending sort, with the JS
`|| 0.001` fallback hit both for a missing element and for a (falsy) zero
energy. -/
noncomputable def breathSpeechLevel (audio : List ℝ) : ℝ :=
  let numFrames := audio.length / 1440
  let v := (sortDesc ((List.range numFrames).map (breathFrameEnergy audio))).getD
    (numFrames / 10) 0
  if v = 0 then 0.001 else v

/-- Breath-frame classification (audioEnhancer.ts lines 400-406). -/
def breathFrame (audio : List ℝ) (f : ℕ) : Prop :=
  let energyRat := breathFrameEnergy audio f / breathSpeechLevel audio
  energyRat > 0.01 ∧ energyRat < 0.3 ∧ breathFrameLowRatio audio f > 0.5

open scoped Classical in
/-- The breath reducer's per-sample target gain
(audioEnhancer.ts lines 412-414): the 12 dB reduction `10^(-12/20)` on
breath frames, else 1; frame index `min(⌊i/1440⌋, numFrames - 1)`, with
gain 1 when there are no frames (the JS lookup at index -1 is undefined,
hence falsy). -/
noncomputable def breathTarget (audio : List ℝ) (i : ℕ) : ℝ :=
  let numFrames := audio.length / 1440
  if numFrames = 0 then 1
  else if breathFrame audio (min (i / 1440) (numFrames - 1)) then (10 : ℝ) ^ ((-12 : ℝ) / 20)
  else 1

/-- The breath reducer's smoothed gain after `i` samples
(audioEnhancer.ts lines 409-416): starts at 1, smoothing coefficient
`1 - exp(-1/480)`. -/
noncomputable def breathGain (audio : List ℝ) : ℕ → ℝ
  | 0 => 1
  | i + 1 =>
    let g := breathGain audio i
    g + (1 - Real.exp (-1 / 480)) * (breathTarget audio i - g)

/-- `applyBreathReducer` (audioEnhancer.ts lines 358-420) at the default
12 dB reduction. -/
noncomputable def applyBreathReducer (audio : List ℝ) : List ℝ :=
  (List.range audio.length).map fun i => audio.getD i 0 * breathGain audio (i + 1)

/-- The shared attack/release envelope follower of the de-esser and the
compressor (audioEnhancer.ts lines 444-450 and 538-544): follows `|xs[i]|`
with coefficient `1 - exp(-1/attackS)` when rising, `1 - exp(-1/releaseS)`
when falling. -/
noncomputable def envFollow (xs : List ℝ) (attackS releaseS : ℕ) : ℕ → ℝ
  | 0 => 0
  | i + 1 =>
    let e := envFollow xs attackS releaseS i
    let lv := |xs.getD i 0|
    let c := if lv > e then 1 - Real.exp (-1 / (attackS : ℝ))
      else 1 - Real.exp (-1 / (releaseS : ℝ))
    e + c * (lv - e)

/-- `applyHighPassFilter` (audioEnhancer.ts lines 578-608): RBJ high-pass
biquad at Q = 0.707, coefficients normalised by `a0` and run through the
shared direct-form-I loop. -/
noncomputable def applyHighPassFilter (input : List ℝ) (cutoff : ℝ) : List ℝ :=
  let omega := 2 * Real.pi * cutoff / 48000
  let cosOmega := Real.cos omega
  let alpha := Real.sin omega / (2 * 0.707)
  let a0 := 1 + alpha
  biquadAux ((1 + cosOmega) / 2 / a0) (-(1 + cosOmega) / a0) ((1 + cosOmega) / 2 / a0)
    1 (-2 * cosOmega / a0) ((1 - alpha) / a0) input (0, 0, 0, 0)

/-- `applyLowPassFilter` (audioEnhancer.ts lines 480-510). -/
noncomputable def applyLowPassFilter (input : List ℝ) (cutoff : ℝ) : List ℝ :=
  let omega := 2 * Real.pi * cutoff / 48000
  let cosOmega := Real.cos omega
  let alpha := Real.sin omega / (2 * 0.707)
  let a0 := 1 + alpha
  biquadAux ((1 - cosOmega) / 2 / a0) ((1 - cosOmega) / a0) ((1 - cosOmega) / 2 / a0)
    1 (-2 * cosOmega / a0) ((1 - alpha) / a0) input (0, 0, 0, 0)

/-- `applyBandpassFilter` (audioEnhancer.ts lines 473-478): high-pass then
low-pass. -/
noncomputable def applyBandpassFilter (input : List ℝ) (lowCut highCut : ℝ) : List ℝ :=
  applyLowPassFilter (applyHighPassFilter input lowCut) highCut

/-- `applyLowShelfFilter` (audioEnhancer.ts lines 612-645). -/
noncomputable def applyLowShelfFilter (input : List ℝ) (frequency gainDb : ℝ) : List ℝ :=
  let A := (10 : ℝ) ^ (gainDb / 40)
  let omega := 2 * Real.pi * frequency / 48000
  let cosOmega := Real.cos omega
  let sinOmega := Real.sin omega
  let sqrtA := Real.sqrt A
  let alpha := sinOmega / 2 * Real.sqrt ((A + 1 / A) * (1 / 0.707 - 1) + 2)
  let a0 := (A + 1) + (A - 1) * cosOmega + 2 * sqrtA * alpha
  biquadAux (A * ((A + 1) - (A - 1) * cosOmega + 2 * sqrtA * alpha) / a0)
    (2 * A * ((A - 1) - (A + 1) * cosOmega) / a0)
    (A * ((A + 1) - (A - 1) * cosOmega - 2 * sqrtA * alpha) / a0)
    1 (-2 * ((A - 1) + (A + 1) * cosOmega) / a0)
    (((A + 1) + (A - 1) * cosOmega - 2 * sqrtA * alpha) / a0) input (0, 0, 0, 0)

/-- `applyHighShelfFilter` (audioEnhancer.ts lines 647-680). -/
noncomputable def applyHighShelfFilter (input : List ℝ) (frequency gainDb : ℝ) : List ℝ :=
  let A := (10 : ℝ) ^ (gainDb / 40)
  let omega := 2 * Real.pi * frequency / 48000
  let cosOmega := Real.cos omega
  let sinOmega := Real.sin omega
  let sqrtA := Real.sqrt A
  let alpha := sinOmega / 2 * Real.sqrt ((A + 1 / A) * (1 / 0.707 - 1) + 2)
  let a0 := (A + 1) - (A - 1) * cosOmega + 2 * sqrtA * alpha
  biquadAux (A * ((A + 1) + (A - 1) * cosOmega + 2 * sqrtA * alpha) / a0)
    (-2 * A * ((A - 1) + (A + 1) * cosOmega) / a0)
    (A * ((A + 1) + (A - 1) * cosOmega - 2 * sqrtA * alpha) / a0)
    1 (2 * ((A - 1) - (A + 1) * cosOmega) / a0)
    (((A + 1) - (A - 1) * cosOmega - 2 * sqrtA * alpha) / a0) input (0, 0, 0, 0)

/-- `applyPeakFilter` (audioEnhancer.ts lines 682-712). -/
noncomputable def applyPeakFilter (input : List ℝ) (frequency gainDb q : ℝ) : List ℝ :=
  let A := (10 : ℝ) ^ (gainDb / 40)
  let omega := 2 * Real.pi * frequency / 48000
  let cosOmega := Real.cos omega
  let sinOmega := Real.sin omega
  let alpha := sinOmega / (2 * q)
  let a0 := 1 + alpha / A
  biquadAux ((1 + alpha * A) / a0) (-2 * cosOmega / a0) ((1 - alpha * A) / a0)
    1 (-2 * cosOmega / a0) ((1 - alpha / A) / a0) input (0, 0, 0, 0)

/-- `applyDeEsser` (audioEnhancer.ts lines 430-470), with its parameters
(default threshold -30 dB, reduction 15 dB): bandpass detector 3-12 kHz,
envelope follower with 0.2 ms / 25 ms windows (`⌊0.0002*48000⌋ = 9`,
`⌊0.025*48000⌋ = 1200` samples), gain reduction
`min(overDb * 0.85, reduction)` floored at the max reduction, applied in
proportion to the sibilance ratio scaled by 1.3. -/
noncomputable def applyDeEsser (threshold reduction : ℝ) (audio : List ℝ) : List ℝ :=
  let detected := applyBandpassFilter audio 3000 12000
  let thLin := (10 : ℝ) ^ (threshold / 20)
  let maxRed := (10 : ℝ) ^ (-reduction / 20)
  (List.range audio.length).map fun i =>
    let env := envFollow detected 9 1200 (i + 1)
    let gain := if env > thLin then
        max ((10 : ℝ) ^ (-(min (20 * Real.logb 10 (env / thLin) * 0.85) reduction) / 20))
          maxRed
      else 1
    let sibilance := min 1 (|detected.getD i 0| / (|audio.getD i 0| + 1e-10))
    audio.getD i 0 * (1 - min 1 (sibilance * 1.3) * (1 - gain))

/-- `applyCompressor` (audioEnhancer.ts lines 515-552) with its parameters
(defaults: threshold -20 dB, ratio 4, attack 5 ms, release 100 ms, makeup
6 dB): envelope follower over `|audio[i]|`, downward compression by
`10^(-overDb*(1 - 1/ratio)/20)` above threshold, then makeup gain. -/
noncomputable def applyCompressor (threshold ratio attack release makeupGain : ℝ)
    (audio : List ℝ) : List ℝ :=
  let attackS := ⌊attack / 1000 * 48000⌋₊
  let releaseS := ⌊release / 1000 * 48000⌋₊
  let thLin := (10 : ℝ) ^ (threshold / 20)
  let makeupLin := (10 : ℝ) ^ (makeupGain / 20)
  (List.range audio.length).map fun i =>
    let env := envFollow audio attackS releaseS (i + 1)
    let gain := if env > thLin then
        (10 : ℝ) ^ (-(20 * Real.logb 10 (env / thLin) * (1 - 1 / ratio)) / 20)
      else 1
    audio.getD i 0 * gain * makeupLin

/-- `applyVoiceEQ` (audioEnhancer.ts lines 557-573): high-pass 80 Hz, low
shelf +3 dB at 200 Hz, presence peak +4 dB at 3 kHz (Q = 1), high shelf
+3 dB at 8 kHz. -/
noncomputable def applyVoiceEQ (audio : List ℝ) : List ℝ :=
  applyHighShelfFilter
    (applyPeakFilter (applyLowShelfFilter (applyHighPassFilter audio 80) 200 3) 3000 4 1)
    8000 3

/-- The limiter's lookahead peak at sample `i` (audioEnhancer.ts lines
728-732): starts from `|audio[i]|` and scans the following
`min(239, len - i - 1)` samples (`lookaheadSamples = ⌊48000*0.005⌋ = 240`,
including the current sample). -/
noncomputable def limiterPeak (audio : List ℝ) (i : ℕ) : ℝ :=
  (List.range' 1 (min 239 (audio.length - i - 1))).foldl
    (fun p j => max p |audio.getD (i + j) 0|) |audio.getD i 0|

/-- The limiter's gain-reduction envelope after `i` samples
(audioEnhancer.ts lines 725-745): starts at 1; target `ceiling/peak` when
the peak exceeds the ceiling, else 1; instant attack when the target is
below the current gain, else release toward it with coefficient
`1 - exp(-1/2400)` (`releaseSamples = ⌊48000*0.05⌋ = 2400`). -/
noncomputable def limiterGain (ceilLin : ℝ) (audio : List ℝ) : ℕ → ℝ
  | 0 => 1
  | i + 1 =>
    let g := limiterGain ceilLin audio i
    let peak := limiterPeak audio i
    let target := if peak > ceilLin then ceilLin / peak else 1
    if target < g then target else g + (1 - Real.exp (-1 / 2400)) * (target - g)

/-- `applyLimiter` (audioEnhancer.ts lines 717-748): `ceilingLinear =
10^(ceiling/20)`; each output sample is the input sample times the
gain-reduction envelope after processing it. -/
noncomputable def applyLimiter (ceiling : ℝ) (audio : List ℝ) : List ℝ :=
  let ceilLin := (10 : ℝ) ^ (ceiling / 20)
  (List.range audio.length).map fun i =>
    audio.getD i 0 * limiterGain ceilLin audio (i + 1)

/-- `enhanceVoice` (audioEnhancer.ts lines 754-785): analysis, adaptive
gate, click remover, breath reducer, de-esser (-30 dB / 15 dB), compressor
(-20 dB, 4:1, 5 ms, 100 ms, +6 dB), voice EQ, limiter (-1 dBFS). -/
noncomputable def enhanceVoice (audio : List ℝ) : List ℝ :=
  let analysis := analyzeAudioLevels audio
  let gateConfig := calculateAdaptiveThreshold analysis
  applyLimiter (-1)
    (applyVoiceEQ
      (applyCompressor (-20) 4 5 100 6
        (applyDeEsser (-30) 15
          (applyBreathReducer
            (applyClickRemover
              (applyAdaptiveNoiseGate gateConfig analysis.speechLikelihoodFrames audio))))))

theorem getD_replicate_zero (n i : ℕ) : (List.replicate n (0 : ℝ)).getD i 0 = 0 := by
  induction n generalizing i with
  | zero => rfl
  | succ n ih =>
    cases i with
    | zero => rfl
    | succ i => simpa [List.replicate_succ, List.getD_cons_succ] using ih i

theorem map_range_zero (n : ℕ) (f : ℕ → ℝ) (h : ∀ i < n, f i = 0) :
    (List.range n).map f = List.replicate n 0 := by
  refine List.eq_replicate_iff.mpr ⟨by simp, fun b hb => ?_⟩
  obtain ⟨i, hi, rfl⟩ := List.mem_map.mp hb
  exact h i (List.mem_range.mp hi)

theorem applyAdaptiveNoiseGate_zero (cfg : AdaptiveGateConfig) (sl : List ℝ) (n : ℕ) :
    applyAdaptiveNoiseGate cfg sl (List.replicate n 0) = List.replicate n 0 := by
  rw [applyAdaptiveNoiseGate, List.length_replicate]
  exact map_range_zero n _ fun i _ => by rw [getD_replicate_zero, zero_mul]

theorem clickAvg_zero (n i : ℕ) : clickAvg (List.replicate n (0 : ℝ)) i = 0 := by
  rw [clickAvg]
  rw [Finset.sum_congr rfl fun j _ => by rw [getD_replicate_zero, abs_zero]]
  rw [Finset.sum_const, smul_zero, zero_div]

theorem applyClickRemover_zero (n : ℕ) :
    applyClickRemover (List.replicate n 0) = List.replicate n 0 := by
  rw [applyClickRemover, List.length_replicate]
  refine map_range_zero n _ fun p _ => ?_
  have hc : ∀ q, ¬ clickCond (List.replicate n (0 : ℝ)) q := by
    intro q hq
    have := hq.2.2.1
    rw [clickAvg_zero] at this
    norm_num at this
  rw [if_neg (hc p), if_neg fun h => hc (p - 1) h.2, getD_replicate_zero]

theorem applyBreathReducer_zero (n : ℕ) :
    applyBreathReducer (List.replicate n 0) = List.replicate n 0 := by
  rw [applyBreathReducer, List.length_replicate]
  exact map_range_zero n _ fun i _ => by rw [getD_replicate_zero, zero_mul]

theorem applyHighPassFilter_zero (c : ℝ) (n : ℕ) :
    applyHighPassFilter (List.replicate n 0) c = List.replicate n 0 :=
  biquadAux_zero _ _ _ _ _ _ n

theorem applyLowPassFilter_zero (c : ℝ) (n : ℕ) :
    applyLowPassFilter (List.replicate n 0) c = List.replicate n 0 :=
  biquadAux_zero _ _ _ _ _ _ n

theorem applyBandpassFilter_zero (lo hi : ℝ) (n : ℕ) :
    applyBandpassFilter (List.replicate n 0) lo hi = List.replicate n 0 := by
  rw [applyBandpassFilter, applyHighPassFilter_zero, applyLowPassFilter_zero]

theorem applyLowShelfFilter_zero (fq g : ℝ) (n : ℕ) :
    applyLowShelfFilter (List.replicate n 0) fq g = List.replicate n 0 :=
  biquadAux_zero _ _ _ _ _ _ n

theorem applyHighShelfFilter_zero (fq g : ℝ) (n : ℕ) :
    applyHighShelfFilter (List.replicate n 0) fq g = List.replicate n 0 :=
  biquadAux_zero _ _ _ _ _ _ n

theorem applyPeakFilter_zero (fq g q : ℝ) (n : ℕ) :
    applyPeakFilter (List.replicate n 0) fq g q = List.replicate n 0 :=
  biquadAux_zero _ _ _ _ _ _ n

theorem applyDeEsser_zero (th red : ℝ) (n : ℕ) :
    applyDeEsser th red (List.replicate n 0) = List.replicate n 0 := by
  rw [applyDeEsser, List.length_replicate]
  exact map_range_zero n _ fun i _ => by rw [getD_replicate_zero, zero_mul]

theorem applyCompressor_zero (th ra a r m : ℝ) (n : ℕ) :
    applyCompressor th ra a r m (List.replicate n 0) = List.replicate n 0 := by
  rw [applyCompressor, List.length_replicate]
  exact map_range_zero n _ fun i _ => by simp only [getD_replicate_zero, zero_mul]

theorem applyVoiceEQ_zero (n : ℕ) :
    applyVoiceEQ (List.replicate n 0) = List.replicate n 0 := by
  rw [applyVoiceEQ, applyHighPassFilter_zero, applyLowShelfFilter_zero,
    applyPeakFilter_zero, applyHighShelfFilter_zero]

theorem applyLimiter_zero (c : ℝ) (n : ℕ) :
    applyLimiter c (List.replicate n 0) = List.replicate n 0 := by
  rw [applyLimiter, List.length_replicate]
  exact map_range_zero n _ fun i _ => by rw [getD_replicate_zero, zero_mul]

/-- C10: End-to-end silence safety.  One second of silence (48000 zero
samples) through the full `enhanceVoice` pipeline returns exactly the
all-zero buffer of the same length: no stage (analysis, gate, click
remover, breath reducer, de-esser, compressor, EQ, limiter) turns the
zero-energy input into anything non-finite or non-zero. -/
theorem C10_silence_safety :
    enhanceVoice (List.replicate 48000 0) = List.replicate 48000 0 := by
  rw [enhanceVoice, applyAdaptiveNoiseGate_zero, applyClickRemover_zero,
    applyBreathReducer_zero, applyDeEsser_zero, applyCompressor_zero,
    applyVoiceEQ_zero, applyLimiter_zero]

theorem foldl_max_le_init (g : ℕ → ℝ) :
    ∀ (l : List ℕ) (init : ℝ), init ≤ l.foldl (fun p j => max p (g j)) init := by
  intro l
  induction l with
  | nil => intro init; exact le_refl _
  | cons x xs ih =>
    intro init
    exact le_trans (le_max_left init (g x)) (ih (max init (g x)))

/-- The lookahead peak includes the current sample. -/
theorem limiterPeak_ge (audio : List ℝ) (i : ℕ) :
    |audio.getD i 0| ≤ limiterPeak audio i :=
  foldl_max_le_init _ _ _

theorem limiter_release_coeff_mem :
    0 < 1 - Real.exp (-1 / 2400) ∧ 1 - Real.exp (-1 / 2400) < 1 := by
  constructor
  · have h : Real.exp (-1 / 2400) < 1 := Real.exp_lt_one_iff.mpr (by norm_num)
    linarith
  · have h : 0 < Real.exp (-1 / 2400) := Real.exp_pos _
    linarith

theorem limiterGain_mem (c : ℝ) (hc : 0 < c) (audio : List ℝ) :
    ∀ i, 0 < limiterGain c audio i ∧ limiterGain c audio i ≤ 1 := by
  intro i
  induction i with
  | zero => exact ⟨one_pos, le_refl 1⟩
  | succ i ih =>
    obtain ⟨hg0, hg1⟩ := ih
    obtain ⟨hrc0, hrc1⟩ := limiter_release_coeff_mem
    have hpk0 : 0 ≤ limiterPeak audio i :=
      le_trans (abs_nonneg _) (limiterPeak_ge audio i)
    have htarget : 0 < (if limiterPeak audio i > c then c / limiterPeak audio i else 1) ∧
        (if limiterPeak audio i > c then c / limiterPeak audio i else 1) ≤ 1 := by
      split_ifs with hpk
      · exact ⟨div_pos hc (lt_trans hc hpk),
          le_of_lt ((div_lt_one (lt_trans hc hpk)).mpr hpk)⟩
      · exact ⟨one_pos, le_refl 1⟩
    obtain ⟨ht0, ht1⟩ := htarget
    simp only [limiterGain]
    by_cases hpk : limiterPeak audio i > c
    · rw [if_pos hpk] at ht0 ht1 ⊢
      constructor
      · split_ifs with h
        · exact ht0
        · nlinarith
      · split_ifs with h
        · exact ht1
        · nlinarith
    · rw [if_neg hpk] at ht0 ht1 ⊢
      constructor
      · split_ifs with h
        · exact ht0
        · nlinarith
      · split_ifs with h
        · exact ht1
        · nlinarith

theorem limiter_sample_le (c : ℝ) (hc : 0 < c) (audio : List ℝ) (i : ℕ) :
    |audio.getD i 0| * limiterGain c audio (i + 1) ≤ c := by
  have hpeak := limiterPeak_ge audio i
  obtain ⟨hg0, hg1⟩ := limiterGain_mem c hc audio i
  obtain ⟨hrc0, hrc1⟩ := limiter_release_coeff_mem
  have habs : (0 : ℝ) ≤ |audio.getD i 0| := abs_nonneg _
  have hkey : ∀ t : ℝ, (limiterPeak audio i > c → t = c / limiterPeak audio i) →
      (¬ limiterPeak audio i > c → t = 1) → 0 ≤ t → |audio.getD i 0| * t ≤ c := by
    intro t h1 h2 ht0
    by_cases hpk : limiterPeak audio i > c
    · rw [h1 hpk]
      have hpkpos : 0 < limiterPeak audio i := lt_trans hc hpk
      calc |audio.getD i 0| * (c / limiterPeak audio i)
          ≤ limiterPeak audio i * (c / limiterPeak audio i) :=
            mul_le_mul_of_nonneg_right hpeak (le_of_lt (div_pos hc hpkpos))
        _ = c := by field_simp
    · rw [h2 hpk]
      rw [mul_one]
      exact le_trans hpeak (not_lt.mp hpk)
  simp only [limiterGain]
  set t := if limiterPeak audio i > c then c / limiterPeak audio i else 1 with hts
  have ht0 : 0 ≤ t := by
    rw [hts]
    split_ifs with hpk
    · exact le_of_lt (div_pos hc (lt_trans hc hpk))
    · norm_num
  have htle : |audio.getD i 0| * t ≤ c := by
    refine hkey t (fun hpk => ?_) (fun hpk => ?_) ht0 <;> rw [hts]
    · rw [if_pos hpk]
    · rw [if_neg hpk]
  split_ifs with h
  · exact htle
  · have hgle : limiterGain c audio i +
        (1 - Real.exp (-1 / 2400)) * (t - limiterGain c audio i) ≤ t := by
      have hgt : limiterGain c audio i ≤ t := not_lt.mp h
      nlinarith
    have hg0' : 0 ≤ limiterGain c audio i +
        (1 - Real.exp (-1 / 2400)) * (t - limiterGain c audio i) := by
      have hgt : limiterGain c audio i ≤ t := not_lt.mp h
      nlinarith
    calc |audio.getD i 0| * (limiterGain c audio i +
          (1 - Real.exp (-1 / 2400)) * (t - limiterGain c audio i))
        ≤ |audio.getD i 0| * t := mul_le_mul_of_nonneg_left hgle habs
      _ ≤ c := htle

theorem getD_map_range (n : ℕ) (f : ℕ → ℝ) (i : ℕ) (hi : i < n) :
    ((List.range n).map f).getD i 0 = f i := by
  simp [List.getD_eq_getElem?_getD, List.getElem?_map, List.getElem?_range, hi]

/-- C6: Limiter ceiling.  For every input buffer and ceiling `c`, every
output sample of `applyLimiter` has absolute amplitude at most the linear
ceiling `10^(c/20)`; the gain-reduction envelope stays in `(0, 1]`, and the
lookahead peak includes the current sample. -/
theorem C6_limiter_ceiling (audio : List ℝ) (c : ℝ) (i : ℕ) (hi : i < audio.length) :
    |(applyLimiter c audio).getD i 0| ≤ (10 : ℝ) ^ (c / 20) ∧
      (0 < limiterGain ((10 : ℝ) ^ (c / 20)) audio (i + 1) ∧
        limiterGain ((10 : ℝ) ^ (c / 20)) audio (i + 1) ≤ 1) ∧
      |audio.getD i 0| ≤ limiterPeak audio i := by
  have hc : (0 : ℝ) < (10 : ℝ) ^ (c / 20) := Real.rpow_pos_of_pos (by norm_num) _
  have hmem := limiterGain_mem ((10 : ℝ) ^ (c / 20)) hc audio (i + 1)
  refine ⟨?_, hmem, limiterPeak_ge audio i⟩
  rw [applyLimiter]
  rw [getD_map_range _ _ _ hi]
  rw [abs_mul, abs_of_pos hmem.1]
  exact limiter_sample_le _ hc audio i

theorem C6_limiter_ceiling_witness :
    |(applyLimiter (-1) ([2] : List ℝ)).getD 0 0| ≤ (10 : ℝ) ^ ((-1 : ℝ) / 20) ∧
      (0 < limiterGain ((10 : ℝ) ^ ((-1 : ℝ) / 20)) [2] 1 ∧
        limiterGain ((10 : ℝ) ^ ((-1 : ℝ) / 20)) [2] 1 ≤ 1) ∧
      |([2] : List ℝ).getD 0 0| ≤ limiterPeak [2] 0 :=
  C6_limiter_ceiling [2] (-1) 0 (by norm_num)

/-- The gate's linear threshold `10^(threshold/20)`
(audioEnhancer.ts line 236). -/
noncomputable def gateThLin (cfg : AdaptiveGateConfig) : ℝ := (10 : ℝ) ^ (cfg.threshold / 20)

/-- The gate's linear soft-knee half width `softKnee / 20`
(audioEnhancer.ts line 237). -/
noncomputable def gateKnee (cfg : AdaptiveGateConfig) : ℝ := cfg.softKnee / 20

/-- The gate's hold length in samples `⌊holdTime/1000 * 48000⌋`
(audioEnhancer.ts line 239). -/
noncomputable def gateHoldSamples (cfg : AdaptiveGateConfig) : ℕ :=
  ⌊cfg.holdTime / 1000 * 48000⌋₊

/-- The target gain the gate computes while processing sample `i`. -/
noncomputable def gateTargetAt (cfg : AdaptiveGateConfig) (sl audio : List ℝ) (i : ℕ) : ℝ :=
  (gateTarget (gateThLin cfg) (gateKnee cfg) (gateHoldSamples cfg)
    (gateRms audio i) (gateSpeechProb sl i)
    (gateState (gateThLin cfg) (gateKnee cfg) (gateHoldSamples cfg) audio sl i).2).1

theorem gateState_snd_succ (thLin knee : ℝ) (hs : ℕ) (audio sl : List ℝ) (i : ℕ) :
    (gateState thLin knee hs audio sl (i + 1)).2 =
      (gateTarget thLin knee hs (gateRms audio i) (gateSpeechProb sl i)
        (gateState thLin knee hs audio sl i).2).2 := rfl

theorem gateState_fst_succ (thLin knee : ℝ) (hs : ℕ) (audio sl : List ℝ) (i : ℕ) :
    (gateState thLin knee hs audio sl (i + 1)).1 =
      (gateState thLin knee hs audio sl i).1 +
        (if (gateTarget thLin knee hs (gateRms audio i) (gateSpeechProb sl i)
              (gateState thLin knee hs audio sl i).2).1 >
            (gateState thLin knee hs audio sl i).1
          then 1 - Real.exp (-1 / 48) else 1 - Real.exp (-1 / 2400)) *
        ((gateTarget thLin knee hs (gateRms audio i) (gateSpeechProb sl i)
          (gateState thLin knee hs audio sl i).2).1 -
          (gateState thLin knee hs audio sl i).1) := rfl

theorem gate_attack_coeff_mem :
    0 < 1 - Real.exp (-1 / 48) ∧ 1 - Real.exp (-1 / 48) < 1 := by
  constructor
  · have h : Real.exp (-1 / 48) < 1 := Real.exp_lt_one_iff.mpr (by norm_num)
    linarith
  · have h : 0 < Real.exp (-1 / 48) := Real.exp_pos _
    linarith

/-- The speech-probability gain floors of `gateTarget`: probability above
0.6 / 0.35 / 0.15 forces the target gain to at least 0.6 / 0.35 / 0.15. -/
theorem gateTarget_floor (thLin knee : ℝ) (hs : ℕ) (rms prob : ℝ) (hold : ℕ) :
    (prob > 0.6 → 0.6 ≤ (gateTarget thLin knee hs rms prob hold).1) ∧
      (prob > 0.35 → 0.35 ≤ (gateTarget thLin knee hs rms prob hold).1) ∧
      (prob > 0.15 → 0.15 ≤ (gateTarget thLin knee hs rms prob hold).1) := by
  simp only [gateTarget]
  refine ⟨fun h6 => ?_, fun h35 => ?_, fun h15 => ?_⟩
  · rw [if_pos h6]
    exact le_max_right _ _
  · by_cases h6 : prob > 0.6
    · rw [if_pos h6]
      exact le_trans (by norm_num) (le_max_right _ _)
    · rw [if_neg h6, if_pos h35]
      exact le_max_right _ _
  · by_cases h6 : prob > 0.6
    · rw [if_pos h6]
      exact le_trans (by norm_num) (le_max_right _ _)
    · by_cases h35 : prob > 0.35
      · rw [if_neg h6, if_pos h35]
        exact le_trans (by norm_num) (le_max_right _ _)
      · rw [if_neg h6, if_neg h35, if_pos h15]
        exact le_max_right _ _

/-- The pre-floor target of `gateTarget` is some value in `[0, 1]`, to
which the speech-probability floors are applied. -/
theorem gateTarget_base_fst (thLin knee : ℝ) (hth : 0 < thLin) (hknee : 0 < knee)
    (hs : ℕ) (rms prob : ℝ) (hold : ℕ) :
    ∃ x : ℝ, 0 ≤ x ∧ x ≤ 1 ∧
      (gateTarget thLin knee hs rms prob hold).1 =
        (if prob > 0.6 then max x 0.6 else if prob > 0.35 then max x 0.35
          else if prob > 0.15 then max x 0.15 else x) := by
  have heff : 0 < thLin * (10 : ℝ) ^ (-(prob * 10) / 20) :=
    mul_pos hth (Real.rpow_pos_of_pos (by norm_num) _)
  simp only [gateTarget]
  by_cases h1 : rms > thLin * (10 : ℝ) ^ (-(prob * 10) / 20) * (1 + knee)
  · refine ⟨1, by norm_num, by norm_num, ?_⟩
    rw [if_pos h1]
  · by_cases h2 : rms > thLin * (10 : ℝ) ^ (-(prob * 10) / 20) * (1 - knee)
    · have hlt : rms / (thLin * (10 : ℝ) ^ (-(prob * 10) / 20)) ≤ 1 + knee :=
        (div_le_iff₀ heff).mpr (by nlinarith [not_lt.mp h1])
      have hgt : 1 - knee < rms / (thLin * (10 : ℝ) ^ (-(prob * 10) / 20)) :=
        (lt_div_iff₀ heff).mpr (by nlinarith [h2])
      refine ⟨(rms / (thLin * (10 : ℝ) ^ (-(prob * 10) / 20)) - (1 - knee)) / (2 * knee),
        ?_, ?_, ?_⟩
      · have hnum : 0 ≤ rms / (thLin * (10 : ℝ) ^ (-(prob * 10) / 20)) - (1 - knee) := by
          linarith
        positivity
      · rw [div_le_one (by positivity)]
        linarith
      · rw [if_neg h1, if_pos h2]
    · by_cases h3 : 0 < hold
      · exact ⟨1, by norm_num, by norm_num, by rw [if_neg h1, if_neg h2, if_pos h3]⟩
      · exact ⟨0, by norm_num, by norm_num, by rw [if_neg h1, if_neg h2, if_neg h3]⟩

/-- The floored target of `gateTarget` lies in `[0, 1]`. -/
theorem gateTarget_mem (thLin knee : ℝ) (hth : 0 < thLin) (hknee : 0 < knee)
    (hs : ℕ) (rms prob : ℝ) (hold : ℕ) :
    0 ≤ (gateTarget thLin knee hs rms prob hold).1 ∧
      (gateTarget thLin knee hs rms prob hold).1 ≤ 1 := by
  obtain ⟨x, hx0, hx1, hx⟩ := gateTarget_base_fst thLin knee hth hknee hs rms prob hold
  rw [hx]
  split_ifs
  · exact ⟨le_trans (by norm_num) (le_max_right _ _), max_le hx1 (by norm_num)⟩
  · exact ⟨le_trans (by norm_num) (le_max_right _ _), max_le hx1 (by norm_num)⟩
  · exact ⟨le_trans (by norm_num) (le_max_right _ _), max_le hx1 (by norm_num)⟩
  · exact ⟨hx0, hx1⟩

/-- The smoothed gate gain stays in `[0, 1]`. -/
theorem gateState_fst_mem (thLin knee : ℝ) (hth : 0 < thLin) (hknee : 0 < knee)
    (hs : ℕ) (audio sl : List ℝ) :
    ∀ i, 0 ≤ (gateState thLin knee hs audio sl i).1 ∧
      (gateState thLin knee hs audio sl i).1 ≤ 1 := by
  intro i
  induction i with
  | zero => exact ⟨le_refl 0, by norm_num [gateState]⟩
  | succ i ih =>
    obtain ⟨hg0, hg1⟩ := ih
    obtain ⟨ht0, ht1⟩ := gateTarget_mem thLin knee hth hknee hs (gateRms audio i)
      (gateSpeechProb sl i) (gateState thLin knee hs audio sl i).2
    obtain ⟨ha0, ha1⟩ := gate_attack_coeff_mem
    obtain ⟨hr0, hr1⟩ := limiter_release_coeff_mem
    rw [gateState_fst_succ]
    constructor
    · split_ifs with h <;> nlinarith
    · split_ifs with h <;> nlinarith

/-- After a sample with speech probability above 0.15 the smoothed gate gain
is strictly positive. -/
theorem gateState_fst_pos (thLin knee : ℝ) (hth : 0 < thLin) (hknee : 0 < knee)
    (hs : ℕ) (audio sl : List ℝ) (i : ℕ) (hp : 0.15 < gateSpeechProb sl i) :
    0 < (gateState thLin knee hs audio sl (i + 1)).1 := by
  obtain ⟨hg0, hg1⟩ := gateState_fst_mem thLin knee hth hknee hs audio sl i
  have hfloor := (gateTarget_floor thLin knee hs (gateRms audio i)
    (gateSpeechProb sl i) (gateState thLin knee hs audio sl i).2).2.2 hp
  obtain ⟨ha0, ha1⟩ := gate_attack_coeff_mem
  obtain ⟨hr0, hr1⟩ := limiter_release_coeff_mem
  rw [gateState_fst_succ]
  split_ifs with h <;> nlinarith

/-- With the hold counter at zero, a sample at or below the lower knee edge
with speech probability at most 0.15 gets target gain exactly 0. -/
theorem gateTarget_closed (thLin knee : ℝ) (hth : 0 < thLin) (hknee : 0 < knee)
    (hs : ℕ) (rms prob : ℝ)
    (hrms : ¬ rms > thLin * (10 : ℝ) ^ (-(prob * 10) / 20) * (1 - knee))
    (hprob : prob ≤ 0.15) :
    (gateTarget thLin knee hs rms prob 0).1 = 0 := by
  have heff : 0 < thLin * (10 : ℝ) ^ (-(prob * 10) / 20) :=
    mul_pos hth (Real.rpow_pos_of_pos (by norm_num) _)
  simp only [gateTarget]
  rw [if_neg (by push_neg at hrms ⊢; nlinarith), if_neg hrms,
    if_neg (lt_irrefl 0), if_neg (by push_neg; nlinarith),
    if_neg (by push_neg; nlinarith), if_neg (by push_neg; nlinarith)]

theorem gateTarget_hold_cases (thLin knee : ℝ) (hs : ℕ) (rms prob : ℝ) (hold : ℕ) :
    (gateTarget thLin knee hs rms prob hold).2 = hs ∨
      (gateTarget thLin knee hs rms prob hold).2 = hold ∨
      (gateTarget thLin knee hs rms prob hold).2 = hold - 1 := by
  simp only [gateTarget]
  split_ifs <;> simp

theorem applyAdaptiveNoiseGate_sample (cfg : AdaptiveGateConfig) (sl audio : List ℝ)
    (i : ℕ) (hi : i < audio.length) :
    (applyAdaptiveNoiseGate cfg sl audio).getD i 0 =
      audio.getD i 0 * (gateState (gateThLin cfg) (gateKnee cfg) (gateHoldSamples cfg)
        audio sl (i + 1)).1 :=
  getD_map_range audio.length _ i hi

/-- C5 (amended): Gate speech protection.  In `applyAdaptiveNoiseGate`, a
sample whose speech likelihood exceeds 0.6 / 0.35 / 0.15 has its target
gain floored at 0.6 / 0.35 / 0.15 respectively, and the smoothed gain
applied to such a sample is strictly positive, so probable speech is never
fully silenced.  A sample at or below the soft-knee's lower edge with
speech likelihood at most 0.15 has target gain 0 provided the hold counter
has expired (the hold condition is missing from the original claim). -/
theorem C5_gate_speech_protection (cfg : AdaptiveGateConfig) (sl audio : List ℝ)
    (hknee : 0 < cfg.softKnee) (i : ℕ) (hi : i < audio.length) :
    (gateSpeechProb sl i > 0.6 → 0.6 ≤ gateTargetAt cfg sl audio i) ∧
      (gateSpeechProb sl i > 0.35 → 0.35 ≤ gateTargetAt cfg sl audio i) ∧
      (gateSpeechProb sl i > 0.15 → 0.15 ≤ gateTargetAt cfg sl audio i) ∧
      (gateSpeechProb sl i > 0.15 → audio.getD i 0 ≠ 0 →
        (applyAdaptiveNoiseGate cfg sl audio).getD i 0 ≠ 0) ∧
      (¬ gateRms audio i > gateThLin cfg *
            (10 : ℝ) ^ (-(gateSpeechProb sl i * 10) / 20) * (1 - gateKnee cfg) →
        gateSpeechProb sl i ≤ 0.15 →
        (gateState (gateThLin cfg) (gateKnee cfg) (gateHoldSamples cfg) audio sl i).2 = 0 →
        gateTargetAt cfg sl audio i = 0) := by
  have hth : 0 < gateThLin cfg := Real.rpow_pos_of_pos (by norm_num) _
  have hkn : 0 < gateKnee cfg := by
    rw [gateKnee]
    linarith
  obtain ⟨h6, h35, h15⟩ := gateTarget_floor (gateThLin cfg) (gateKnee cfg)
    (gateHoldSamples cfg) (gateRms audio i) (gateSpeechProb sl i)
    (gateState (gateThLin cfg) (gateKnee cfg) (gateHoldSamples cfg) audio sl i).2
  refine ⟨h6, h35, h15, fun hp ha => ?_, fun hrms hp hhold => ?_⟩
  · rw [applyAdaptiveNoiseGate_sample cfg sl audio i hi]
    exact mul_ne_zero ha
      (ne_of_gt (gateState_fst_pos _ _ hth hkn _ audio sl i hp))
  · show (gateTarget (gateThLin cfg) (gateKnee cfg) (gateHoldSamples cfg)
      (gateRms audio i) (gateSpeechProb sl i)
      (gateState (gateThLin cfg) (gateKnee cfg) (gateHoldSamples cfg) audio sl i).2).1 = 0
    rw [hhold]
    exact gateTarget_closed _ _ hth hkn _ _ _ hrms hp

theorem C5_gate_speech_protection_witness :
    (gateSpeechProb [1] 0 > 0.6 → 0.6 ≤ gateTargetAt ⟨-40, 100, 6⟩ [1] [1] 0) ∧
      (gateSpeechProb [1] 0 > 0.35 → 0.35 ≤ gateTargetAt ⟨-40, 100, 6⟩ [1] [1] 0) ∧
      (gateSpeechProb [1] 0 > 0.15 → 0.15 ≤ gateTargetAt ⟨-40, 100, 6⟩ [1] [1] 0) ∧
      (gateSpeechProb [1] 0 > 0.15 → ([1] : List ℝ).getD 0 0 ≠ 0 →
        (applyAdaptiveNoiseGate ⟨-40, 100, 6⟩ [1] [1]).getD 0 0 ≠ 0) ∧
      (¬ gateRms [1] 0 > gateThLin ⟨-40, 100, 6⟩ *
            (10 : ℝ) ^ (-(gateSpeechProb [1] 0 * 10) / 20) * (1 - gateKnee ⟨-40, 100, 6⟩) →
        gateSpeechProb [1] 0 ≤ 0.15 →
        (gateState (gateThLin ⟨-40, 100, 6⟩) (gateKnee ⟨-40, 100, 6⟩)
          (gateHoldSamples ⟨-40, 100, 6⟩) [1] [1] 0).2 = 0 →
        gateTargetAt ⟨-40, 100, 6⟩ [1] [1] 0 = 0) :=
  C5_gate_speech_protection ⟨-40, 100, 6⟩ [1] [1] (by norm_num) 0 (by norm_num)

theorem gate_cex_prob : ∀ i : ℕ, gateSpeechProb [(0 : ℝ)] i = 0 := by
  intro i
  rw [gateSpeechProb, if_neg (by simp)]
  simp

theorem gate_cex_rpow : (10 : ℝ) ^ (-((0 : ℝ) * 10) / 20) = 1 := by
  rw [show -((0 : ℝ) * 10) / 20 = 0 from by norm_num]
  exact Real.rpow_zero 10

theorem gate_cex_thlin : gateThLin ⟨-40, 100, 6⟩ = 1 / 100 := by
  rw [gateThLin]
  rw [show ((⟨-40, 100, 6⟩ : AdaptiveGateConfig).threshold / 20) = ((-2 : ℤ) : ℝ) from by
    norm_num]
  rw [Real.rpow_intCast]
  norm_num

theorem gate_cex_knee : gateKnee ⟨-40, 100, 6⟩ = 0.3 := by
  rw [gateKnee]
  norm_num

theorem gate_cex_hs : gateHoldSamples ⟨-40, 100, 6⟩ = 4800 := by
  rw [gateHoldSamples]
  rw [show ((⟨-40, 100, 6⟩ : AdaptiveGateConfig).holdTime / 1000 * 48000) =
    ((4800 : ℕ) : ℝ) from by norm_num]
  exact Nat.floor_natCast 4800

theorem gate_cex_rms0 : gateRms [(0.014 : ℝ), 0, 0, 0] 0 = 0.014 := by
  rw [gateRms, show (0 - 480 : ℕ) = 0 from rfl, Finset.Icc_self, Finset.sum_singleton]
  rw [show ([(0.014 : ℝ), 0, 0, 0].getD 0 0) = 0.014 from rfl]
  rw [show (((0 : ℕ) : ℝ) - ((0 : ℕ) : ℝ) + 1) = 1 from by norm_num]
  rw [show ((0.014 : ℝ) * 0.014 / 1) = 0.014 ^ 2 from by norm_num]
  exact Real.sqrt_sq (by norm_num)

theorem gate_cex_rms3 : gateRms [(0.014 : ℝ), 0, 0, 0] 3 = 0.007 := by
  rw [gateRms, show (3 - 480 : ℕ) = 0 from rfl]
  rw [show Finset.Icc (0 : ℕ) 3 = {0, 1, 2, 3} from by decide]
  rw [Finset.sum_insert (by decide), Finset.sum_insert (by decide),
    Finset.sum_insert (by decide), Finset.sum_singleton]
  rw [show ([(0.014 : ℝ), 0, 0, 0].getD 0 0) = 0.014 from rfl,
    show ([(0.014 : ℝ), 0, 0, 0].getD 1 0) = 0 from rfl,
    show ([(0.014 : ℝ), 0, 0, 0].getD 2 0) = 0 from rfl,
    show ([(0.014 : ℝ), 0, 0, 0].getD 3 0) = 0 from rfl]
  rw [show (((3 : ℕ) : ℝ) - ((0 : ℕ) : ℝ) + 1) = 4 from by norm_num]
  rw [show ((0.014 : ℝ) * 0.014 + (0 * 0 + (0 * 0 + 0 * 0))) / 4 = 0.007 ^ 2 from by
    norm_num]
  exact Real.sqrt_sq (by norm_num)

theorem gate_cex_hold1 :
    (gateState (1 / 100 : ℝ) 0.3 4800 [(0.014 : ℝ), 0, 0, 0] [0] 1).2 = 4800 := by
  rw [show (1 : ℕ) = 0 + 1 from rfl, gateState_snd_succ]
  rw [gate_cex_prob 0, gate_cex_rms0]
  simp only [gateTarget, gate_cex_rpow]
  rw [if_pos (by norm_num)]

theorem gate_cex_hold3 :
    0 < (gateState (1 / 100 : ℝ) 0.3 4800 [(0.014 : ℝ), 0, 0, 0] [0] 3).2 := by
  have h2 : 4799 ≤ (gateState (1 / 100 : ℝ) 0.3 4800 [(0.014 : ℝ), 0, 0, 0] [0] 2).2 := by
    rw [show (2 : ℕ) = 1 + 1 from rfl, gateState_snd_succ, gate_cex_prob 1, gate_cex_hold1]
    rcases gateTarget_hold_cases (1 / 100 : ℝ) 0.3 4800
      (gateRms [(0.014 : ℝ), 0, 0, 0] 1) 0 4800 with h | h | h <;> omega
  rw [show (3 : ℕ) = 2 + 1 from rfl, gateState_snd_succ, gate_cex_prob 2]
  rcases gateTarget_hold_cases (1 / 100 : ℝ) 0.3 4800
    (gateRms [(0.014 : ℝ), 0, 0, 0] 2) 0
    (gateState (1 / 100 : ℝ) 0.3 4800 [(0.014 : ℝ), 0, 0, 0] [0] 2).2 with h | h | h <;>
    omega

/-- C5 counterexample: in the actual state trace of the adaptive gate on
the buffer `[0.014, 0, 0, 0]` (threshold -40 dB, hold 100 ms, soft knee
6 dB, speech likelihood 0 for every frame), sample 3 sits exactly at the
lower soft-knee edge (hence below the threshold region) and has speech
likelihood 0 ≤ 0.15, yet its target gain is 1, not 0: the loud first
sample armed the 4800-sample hold counter, which the original claim
ignores. -/
theorem C5_gate_counterexample :
    gateSpeechProb [(0 : ℝ)] 3 ≤ 0.15 ∧
      ¬ gateRms [(0.014 : ℝ), 0, 0, 0] 3 >
        gateThLin ⟨-40, 100, 6⟩ *
          (10 : ℝ) ^ (-(gateSpeechProb [(0 : ℝ)] 3 * 10) / 20) *
          (1 - gateKnee ⟨-40, 100, 6⟩) ∧
      gateTargetAt ⟨-40, 100, 6⟩ [(0 : ℝ)] [(0.014 : ℝ), 0, 0, 0] 3 = 1 := by
  refine ⟨by rw [gate_cex_prob 3]; norm_num, ?_, ?_⟩
  · rw [gate_cex_prob 3, gate_cex_rpow, gate_cex_thlin, gate_cex_knee, gate_cex_rms3]
    norm_num
  · show (gateTarget (gateThLin ⟨-40, 100, 6⟩) (gateKnee ⟨-40, 100, 6⟩)
      (gateHoldSamples ⟨-40, 100, 6⟩)
      (gateRms [(0.014 : ℝ), 0, 0, 0] 3) (gateSpeechProb [(0 : ℝ)] 3)
      (gateState (gateThLin ⟨-40, 100, 6⟩) (gateKnee ⟨-40, 100, 6⟩)
        (gateHoldSamples ⟨-40, 100, 6⟩) [(0.014 : ℝ), 0, 0, 0] [(0 : ℝ)] 3).2).1 = 1
    rw [gate_cex_thlin, gate_cex_knee, gate_cex_hs, gate_cex_prob 3, gate_cex_rms3]
    simp only [gateTarget, gate_cex_rpow]
    rw [if_neg (by norm_num), if_neg (by norm_num), if_pos gate_cex_hold3]
    rw [if_neg (by norm_num), if_neg (by norm_num), if_neg (by norm_num)]
